import Mathlib

/-!
# Verification of the flashtext keyword matcher

Shallow embedding of `robotoff/utils/text/flashtext.py` (class
`KeywordProcessor` and the module-level helpers `_get_span_indices` and
`get_index_mapping`).

The Python trie is a nested dict mapping single characters to child dicts,
with the reserved key `_keyword_` holding the clean value at terminal nodes.
We embed it as a first-class tree: `Trie.node terminal children`, where
`children` is an association list preserving insertion order (Python dicts
iterate in insertion order, which matters for the fuzzy search's
first-in-iteration-order tie-breaking).  The `_keyword_` entry of a dict is
the `terminal` slot; it yields nothing in the fuzzy search (its value is not
a dict), so keeping it out of `children` is observation-equivalent.

The scanning loops (`extract_keywords`'s outer `while idx < sentence_len`
loop and its nested `while idy < sentence_len` lookahead loop) are embedded
as fuel-indexed recursions returning `none` on fuel exhaustion; theorems
below show that the chosen fuels are always sufficient, which is the formal
content of the termination claim.
-/

namespace Flashtext

mutual

/-- A trie node: the optional terminal slot (the `_keyword_` entry) and the
child edges in insertion order (the remaining entries of the Python dict). -/
inductive Trie where
  | node (terminal : Option String) (children : Children)

/-- Insertion-ordered association list of child edges of a trie node. -/
inductive Children where
  | nil
  | cons (key : Char) (child : Trie) (rest : Children)

end

/-- The terminal slot of a node (the `_keyword_` entry of the dict). -/
def Trie.terminal : Trie → Option String
  | .node t _ => t

/-- The child edges of a node. -/
def Trie.children : Trie → Children
  | .node _ ch => ch

/-- First child with the given key (Python `current_dict[char]` /
`char in current_dict`). -/
def Children.get? : Children → Char → Option Trie
  | .nil, _ => none
  | .cons k t rest, c => if k = c then some t else rest.get? c

/-- Replace the child at the given key (in place, preserving order);
mirrors rebinding an existing dict key. -/
def Children.replace : Children → Char → Trie → Children
  | .nil, _, _ => .nil
  | .cons k t rest, c, u => if k = c then .cons k u rest else .cons k t (rest.replace c u)

/-- Append a new child edge at the end (Python `dict.setdefault` inserts new
keys at the end of the iteration order). -/
def Children.append : Children → Char → Trie → Children
  | .nil, c, u => .cons c u .nil
  | .cons k t rest, c, u => .cons k t (rest.append c u)

/-- Remove the child edge with the given key (Python `dict.pop`). -/
def Children.erase : Children → Char → Children
  | .nil, _ => .nil
  | .cons k t rest, c => if k = c then rest else .cons k t (rest.erase c)

/-- Number of child edges. -/
def Children.length : Children → Nat
  | .nil => 0
  | .cons _ _ rest => 1 + rest.length

/-- Whether some child key satisfies the predicate. -/
def Children.anyKey : Children → (Char → Bool) → Bool
  | .nil, _ => false
  | .cons k _ rest, p => p k || rest.anyKey p

mutual

/-- Number of dict nodes in the (sub)trie, counting this node. -/
def Trie.size : Trie → Nat
  | .node _ ch => 1 + ch.totalSize

/-- Total size of the subtries hanging off a children list. -/
def Children.totalSize : Children → Nat
  | .nil => 0
  | .cons _ t rest => t.size + rest.totalSize

end

mutual

/-- Number of terminal slots in the (sub)trie: the number of registered
patterns whose path runs through this node. -/
def Trie.countTerminals : Trie → Nat
  | .node t ch => (if t.isSome then 1 else 0) + ch.countTerminals

/-- Total terminal count of the subtries hanging off a children list. -/
def Children.countTerminals : Children → Nat
  | .nil => 0
  | .cons _ t rest => t.countTerminals + rest.countTerminals

end

/-- Python `len(dict.keys())` of the dict a node stands for: the child edges
plus the `_keyword_` entry when present. -/
def Trie.keyCount (t : Trie) : Nat :=
  t.children.length + (if t.terminal.isSome then 1 else 0)

/-- The dict of a node is empty (falsy in Python). -/
def Trie.isEmptyNode : Trie → Bool
  | .node none .nil => true
  | _ => false

/-- The empty trie node `{}`. -/
def Trie.emptyNode : Trie := .node none .nil

/-- Observation of a trie at a path: `none` when the path leaves the trie,
otherwise the terminal slot of the node it reaches.  Two tries with the same
observations are indistinguishable to lookup and to non-fuzzy extraction. -/
def Trie.obs : Trie → List Char → Option (Option String)
  | t, [] => some t.terminal
  | t, c :: cs =>
    match t.children.get? c with
    | some u => u.obs cs
    | none => none

/-- Follow a full path down the trie. -/
def Trie.lookupNode : Trie → List Char → Option Trie
  | t, [] => some t
  | t, c :: cs =>
    match t.children.get? c with
    | some u => u.lookupNode cs
    | none => none

/-- Terminal value at the end of a full path, mirroring the
`__contains__`/`__getitem__` walk (walk every character, then require the
`_keyword_` entry at the final node). -/
def Trie.lookupTerm (t : Trie) (p : List Char) : Option String :=
  match t.lookupNode p with
  | some u => u.terminal
  | none => none

/-- Walk/create one node per character and set the terminal value, mirroring
the `__setitem__` loop of `setdefault` calls.  Returns the updated trie and
the status flag (`True` iff `_keyword_` was absent at the final node). -/
def Trie.addPath : Trie → List Char → String → Trie × Bool
  | .node term ch, [], v => (.node (some v) ch, term.isNone)
  | .node term ch, c :: cs, v =>
    match ch.get? c with
    | some child =>
      let r := child.addPath cs v
      (.node term (ch.replace c r.1), r.2)
    | none =>
      let r := Trie.emptyNode.addPath cs v
      (.node term (ch.append c r.1), r.2)

/-- Bottom-up pruning walk of `__delitem__`.  Returns `none` when the keyword
is not registered along the path.  Otherwise returns the updated subtree and
the continue-pruning flag: `true` iff every dict from this node down along
the path had exactly one key, so the parent should pop the edge leading here
(Python pops the key and keeps looping while `len(dict_pointer.keys()) == 1`,
popping the key and breaking at the first dict with more than one key). -/
def Trie.removeAux : Trie → List Char → Option (Trie × Bool)
  | .node term ch, [] =>
    match term with
    | none => none
    | some v => some (.node none ch, (Trie.node (some v) ch).keyCount == 1)
  | .node term ch, c :: cs =>
    match ch.get? c with
    | none => none
    | some child =>
      match child.removeAux cs with
      | none => none
      | some r =>
        if r.2 then
          some (.node term (ch.erase c), (Trie.node term ch).keyCount == 1)
        else
          some (.node term (ch.replace c r.1), false)

/-- LATIN CAPITAL LETTER I WITH DOT ABOVE, the only character whose
lowercased form has a different length (per the comment in the source and
Unicode SpecialCasing). -/
def latinCapitalIWithDot : Char := 'İ'

/-- COMBINING DOT ABOVE, the second character of `İ`.lower(). -/
def combiningDotAbove : Char := Char.ofNat 0x0307

/-- Model of Python `str.lower` on a single character.  `İ` lowers to the
two-character sequence `i` + COMBINING DOT ABOVE; every other character
lowers to a single character (we use ASCII lowering; per Unicode
SpecialCasing `İ` is the only character whose lowercase changes the length,
which is the only aspect the matcher's index arithmetic depends on). -/
def pyLowerChar (c : Char) : List Char :=
  if c = latinCapitalIWithDot then ['i', combiningDotAbove] else [c.toLower]

/-- Model of Python `str.lower`. -/
def pyLower (s : List Char) : List Char :=
  (s.map pyLowerChar).flatten

/-- Python truthiness of the optional clean value (`None` and the empty
string are falsy). -/
def optTruthy : Option String → Bool
  | none => false
  | some v => v ≠ ""

/-- The default `non_word_boundaries` set:
`string.digits + string.ascii_letters + "_"`. -/
def defaultNonWordBoundaries : List Char :=
  "0123456789abcdefghijklmnopqrstuvwxyzABCDEFGHIJKLMNOPQRSTUVWXYZ_".toList

/-- The `_white_space_chars` set used to terminate the fuzzy lookahead. -/
def whiteSpaceChars : List Char :=
  ['.', '\t', '\n', Char.ofNat 0x07, ' ', ',']

/-- The matcher state: configuration plus the trie store and the live
terminal count (`_terms_in_trie`).  The count is an integer because Python's
is; the invariant tying it to the trie is proved below, not assumed. -/
structure KeywordProcessor where
  case_sensitive : Bool
  non_word_boundaries : List Char
  keyword_trie_dict : Trie
  terms_in_trie : Int

namespace KeywordProcessor

/-- `KeywordProcessor.__init__`. -/
def init (caseSensitive : Bool) : KeywordProcessor :=
  ⟨caseSensitive, defaultNonWordBoundaries, Trie.emptyNode, 0⟩

/-- `KeywordProcessor.__len__`: the live terminal count. -/
def lenKP (kp : KeywordProcessor) : Int :=
  kp.terms_in_trie

/-- Case-fold a key the way every API entry point does:
`if not self.case_sensitive: word = word.lower()`. -/
def foldKey (kp : KeywordProcessor) (w : List Char) : List Char :=
  if kp.case_sensitive then w else pyLower w

/-- Membership in `non_word_boundaries` (a word character). -/
def isWordChar (kp : KeywordProcessor) (c : Char) : Bool :=
  kp.non_word_boundaries.contains c

/-- `KeywordProcessor.__setitem__`.  A `None` clean name defaults to the
keyword *before* case folding; an empty keyword or a falsy clean name makes
the call a no-op returning `False`. -/
def setItem (kp : KeywordProcessor) (keyword : List Char) (cleanName : Option String) :
    KeywordProcessor × Bool :=
  let cleanName := if cleanName = none ∧ keyword ≠ [] then some (String.mk keyword) else cleanName
  if keyword ≠ [] ∧ optTruthy cleanName then
    let kw := kp.foldKey keyword
    let r := kp.keyword_trie_dict.addPath kw (cleanName.getD "")
    (⟨kp.case_sensitive, kp.non_word_boundaries, r.1,
      kp.terms_in_trie + (if r.2 then 1 else 0)⟩, r.2)
  else (kp, false)

/-- `KeywordProcessor.add_keyword` (delegates to `__setitem__`). -/
def add_keyword (kp : KeywordProcessor) (keyword : List Char)
    (cleanName : Option String) : KeywordProcessor × Bool :=
  kp.setItem keyword cleanName

/-- `KeywordProcessor.__delitem__`. -/
def delItem (kp : KeywordProcessor) (keyword : List Char) : KeywordProcessor × Bool :=
  if keyword ≠ [] then
    match kp.keyword_trie_dict.removeAux (kp.foldKey keyword) with
    | some r =>
      (⟨kp.case_sensitive, kp.non_word_boundaries, r.1, kp.terms_in_trie - 1⟩, true)
    | none => (kp, false)
  else (kp, false)

/-- `KeywordProcessor.remove_keyword` (delegates to `__delitem__`). -/
def remove_keyword (kp : KeywordProcessor) (keyword : List Char) :
    KeywordProcessor × Bool :=
  kp.delItem keyword

/-- `KeywordProcessor.__getitem__`: the clean name of a registered pattern. -/
def getItem (kp : KeywordProcessor) (word : List Char) : Option String :=
  kp.keyword_trie_dict.lookupTerm (kp.foldKey word)

/-- `KeywordProcessor.get_keyword` (delegates to `__getitem__`). -/
def get_keyword (kp : KeywordProcessor) (word : List Char) : Option String :=
  kp.getItem word

/-- `KeywordProcessor.__contains__`. -/
def containsKeyword (kp : KeywordProcessor) (word : List Char) : Bool :=
  (kp.getItem word).isSome

end KeywordProcessor

/-- A value of a structured pattern source:
either the expected list of keyword variants or something else (modelled by
a string, standing for any non-list Python value). -/
inductive DictVal where
  | vlist (keywords : List (List Char))
  | vstr (s : String)

/-- Fold `add_keyword(keyword, clean_name)` over one entry's keyword list. -/
def addEntry (kp : KeywordProcessor) (cleanName : String) :
    List (List Char) → KeywordProcessor
  | [] => kp
  | kw :: rest => addEntry (kp.add_keyword kw (some cleanName)).1 cleanName rest

/-- `KeywordProcessor.add_keywords_from_dict`: iterate the entries in order;
on the first value that is not a list, raise `AttributeError` (second
component `true`), leaving the mutations performed so far in place. -/
def addKeywordsFromDict (kp : KeywordProcessor) :
    List (String × DictVal) → KeywordProcessor × Bool
  | [] => (kp, false)
  | (cleanName, DictVal.vlist kws) :: rest =>
    addKeywordsFromDict (addEntry kp cleanName kws) rest
  | (_, DictVal.vstr _) :: _ => (kp, true)

/-- The column loop of `_levenshtein_rec` for the columns after the first:
`w :: ws` are the remaining word characters (`word[col-1]`, ...), `rPrev` is
`rows[col-1]`, `rest` the remaining old row (`rows[col]`, ...), and
`prevNew` is `new_rows[col-1]`. -/
def nextRowGo (c : Char) : List Char → Nat → List Nat → Nat → List Nat
  | [], _, _, _ => []
  | w :: ws, rPrev, rest, prevNew =>
    let rCol := rest.headD 0
    let insertCost := prevNew + 1
    let deleteCost := rCol + 1
    let replaceCost := rPrev + (if w = c then 0 else 1)
    let cost := Nat.min insertCost (Nat.min deleteCost replaceCost)
    cost :: nextRowGo c ws rCol rest.tail cost

/-- The next DP row of `_levenshtein_rec`: `new_rows = [rows[0] + 1]`
followed by `min(insert_cost, delete_cost, replace_cost)` per column. -/
def nextRow (c : Char) (word : List Char) (rows : List Nat) : List Nat :=
  let h := rows.headD 0
  (h + 1) :: nextRowGo c word h rows.tail (h + 1)

/-- Minimum of a DP row (`min(new_rows)`; rows are never empty). -/
def minRow : List Nat → Nat
  | [] => 0
  | h :: t => t.foldl Nat.min h

/-- The accept test of `_levenshtein_rec`: the node is terminal, or some
child edge is labelled by a whitespace character
(`node.keys() & (self._white_space_chars | {self._keyword})`). -/
def stopCrit (t : Trie) : Bool :=
  t.terminal.isSome || t.children.anyKey (fun k => whiteSpaceChars.contains k)

/-- Turn a children list into DFS stack entries carrying the parent's DP row
and the child's depth, preserving iteration order. -/
def Children.toEntries : Children → List Nat → Nat → List (Char × Trie × List Nat × Nat)
  | .nil, _, _ => []
  | .cons c t rest, rows, d => (c, t, rows, d) :: rest.toEntries rows d

/-- Depth-first traversal of `levensthein`/`_levenshtein_rec`, stopping at
the first yield.  The recursive generator is embedded as an explicit stack:
popping an entry computes its DP row; if the row's last cell is within
budget and the accept test holds the node is returned (with the `cost`
variable, which is the last computed column, i.e. 0 for an empty word);
otherwise, if the row minimum is within budget, the node's children are
pushed in iteration order; otherwise the branch is pruned.  The outer
`Option` is fuel exhaustion (proved unreachable for fuel ≥ the stacked
subtrie sizes); the inner `Option` is yield/no-yield. -/
def levDFS (word : List Char) (maxCost : Nat) :
    Nat → List (Char × Trie × List Nat × Nat) → Option (Option (Trie × Nat × Nat))
  | 0, _ => none
  | _ + 1, [] => some none
  | fuel + 1, (c, t, rows, depth) :: stack =>
    let newRows := nextRow c word rows
    let lastCost := newRows.getLastD 0
    let cost := if word = [] then 0 else lastCost
    if lastCost ≤ maxCost ∧ stopCrit t then some (some (t, cost, depth))
    else if minRow newRows ≤ maxCost then
      levDFS word maxCost fuel (t.children.toEntries newRows (depth + 1) ++ stack)
    else levDFS word maxCost fuel stack

/-- `start_node = start_node or self.keyword_trie_dict`: an empty (falsy)
start node is replaced by the root. -/
def orRoot (root : Trie) : Trie → Trie
  | .node none .nil => root
  | t => t

/-- `next(self.levensthein(word, max_cost, start_node), default)` without
the default: the first yield of the fuzzy search, with its fuel made
explicit. -/
def levenshteinFirstRaw (root : Trie) (word : List Char) (maxCost : Nat)
    (startNode : Trie) : Option (Option (Trie × Nat × Nat)) :=
  let start := orRoot root startNode
  levDFS word maxCost start.size
    (start.children.toEntries (List.range (word.length + 1)) 1)

/-- The first yield of the fuzzy search (`none` when the generator is
exhausted immediately, i.e. the Python `next(..., default)` default case). -/
def levenshteinFirst (root : Trie) (word : List Char) (maxCost : Nat)
    (startNode : Trie) : Option (Trie × Nat × Nat) :=
  (levenshteinFirstRaw root word maxCost startNode).getD none

/-- `KeywordProcessor.get_next_word`: the longest prefix of word
characters. -/
def KeywordProcessor.get_next_word (kp : KeywordProcessor) (s : List Char) : List Char :=
  s.takeWhile (fun c => kp.isWordChar c)

/-- The variables of the inner lookahead loop that survive it:
`longest_sequence_found`, `sequence_end_pos`, `is_longer_seq_found`, and
`curr_cost`. -/
structure InnerRes where
  longest : Option String
  seqEnd : Nat
  isLonger : Bool
  currCost : Nat

/-- The inner `while idy < sentence_len` lookahead loop of
`extract_keywords` (lines 553-594 of the source), fuel-indexed.  Each
iteration: if the character at `idy` is a word boundary and the current
lookahead node is terminal, record it as the longest sequence ending at
`idy`; then follow the literal trie edge if it exists, else (with budget
left) consume the next word fuzzily, moving `idy` by its length and
charging the edit cost, else break.  Falling off the end of the sentence
runs the `while`-`else` final terminal check. -/
def innerLoopF (kp : KeywordProcessor) (sentence : List Char) :
    Nat → Trie → Nat → Nat → Option String → Nat → Bool → Option InnerRes
  | 0, _, _, _, _, _, _ => none
  | fuel + 1, cdc, idy, currCost, longest, seqEnd, isLonger =>
    if idy < sentence.length then
      let c := sentence.getD idy (Char.ofNat 0)
      let upd := ¬ kp.isWordChar c ∧ cdc.terminal.isSome
      let longest1 := if upd then cdc.terminal else longest
      let seqEnd1 := if upd then idy else seqEnd
      let isLonger1 := if upd then true else isLonger
      match cdc.children.get? c with
      | some child =>
        innerLoopF kp sentence fuel child (idy + 1) currCost longest1 seqEnd1 isLonger1
      | none =>
        if 0 < currCost then
          let nw := kp.get_next_word (sentence.drop idy)
          match levenshteinFirst kp.keyword_trie_dict nw currCost cdc with
          | some (node, cost, _) =>
            match node with
            | .node none .nil =>
              some ⟨longest1, seqEnd1, isLonger1, currCost - cost⟩
            | _ =>
              innerLoopF kp sentence fuel node (idy + nw.length - 1 + 1)
                (currCost - cost) longest1 seqEnd1 isLonger1
          | none => some ⟨longest1, seqEnd1, isLonger1, currCost⟩
        else some ⟨longest1, seqEnd1, isLonger1, currCost⟩
    else
      if cdc.terminal.isSome then some ⟨cdc.terminal, idy, true, currCost⟩
      else some ⟨longest, seqEnd, isLonger, currCost⟩

/-- Fuel that always suffices for the inner lookahead loop starting at node
`child` (proved below): every iteration either advances `idy` or strictly
descends in the trie (possibly after swapping an empty node for the root). -/
def innerFuelFor (kp : KeywordProcessor) (sentence : List Char) (child : Trie) : Nat :=
  let B := child.size + kp.keyword_trie_dict.size + 2
  (sentence.length + 2) * (B + 1) + B + 1

/-- `idy = idx + 1; while idy < sentence_len and word char: idy += 1`:
the skip-to-end-of-word of the no-match branch, expressed via the word-run
length. -/
def skipWordEnd (kp : KeywordProcessor) (sentence : List Char) (i : Nat) : Nat :=
  i + (kp.get_next_word (sentence.drop i)).length

/-- The mutable state of the outer scan loop of `extract_keywords`.  The
spans in `acc` are in coordinates of the (possibly lowercased) sentence;
the final index-mapping translation is applied after the loop. -/
structure ScanState where
  currentDict : Trie
  sequenceStartPos : Nat
  sequenceEndPos : Nat
  idx : Nat
  currCost : Nat
  acc : List (String × Nat × Nat)

/-- One iteration of the outer `while idx < sentence_len` loop of
`extract_keywords` (lines 532-649 of the source): the boundary-character
branch (terminal check, lookahead, emission, reset), the literal-edge
branch, the outer fuzzy branch, and the skip-to-word-end branch; then the
end-of-sentence trailing terminal check, `idx += 1`, and the
`sequence_start_pos` reset.  Returns `none` only on inner-loop fuel
exhaustion, which is proved unreachable. -/
def outerBranch (kp : KeywordProcessor) (sentence : List Char) (maxCost : Nat)
    (s : ScanState) : Option (Trie × Bool × Nat × Nat × Nat × List (String × Nat × Nat)) :=
  let char := sentence.getD s.idx (Char.ofNat 0)
  if ¬ kp.isWordChar char then
    if s.currentDict.terminal.isSome || (s.currentDict.children.get? char).isSome then
      let longest0 := s.currentDict.terminal
      let seqEnd0 := if s.currentDict.terminal.isSome then s.idx else s.sequenceEndPos
      let innerRes : Option InnerRes :=
        match s.currentDict.children.get? char with
        | some child =>
          innerLoopF kp sentence (innerFuelFor kp sentence child) child
            (s.idx + 1) s.currCost longest0 seqEnd0 false
        | none => some ⟨longest0, seqEnd0, false, s.currCost⟩
      match innerRes with
      | none => none
      | some r =>
        let idx1 := if r.isLonger then r.seqEnd else s.idx
        if optTruthy r.longest then
          some (kp.keyword_trie_dict, true, r.seqEnd, idx1, maxCost,
            s.acc ++ [(r.longest.getD "", s.sequenceStartPos, idx1)])
        else
          some (kp.keyword_trie_dict, true, r.seqEnd, idx1, r.currCost, s.acc)
    else
      some (kp.keyword_trie_dict, true, s.sequenceEndPos, s.idx, s.currCost, s.acc)
  else
    match s.currentDict.children.get? char with
    | some child =>
      some (child, false, s.sequenceEndPos, s.idx, s.currCost, s.acc)
    | none =>
      if 0 < s.currCost then
        let nw := kp.get_next_word (sentence.drop s.idx)
        match levenshteinFirst kp.keyword_trie_dict nw s.currCost s.currentDict with
        | some (node, cost, _) =>
          some (node, false, s.sequenceEndPos, s.idx + nw.length - 1,
            s.currCost - cost, s.acc)
        | none =>
          some (kp.keyword_trie_dict, false, s.sequenceEndPos,
            s.idx + nw.length - 1, s.currCost, s.acc)
      else
        some (kp.keyword_trie_dict, true, s.sequenceEndPos,
          skipWordEnd kp sentence (s.idx + 1), s.currCost, s.acc)

/-- The tail of each outer iteration: the end-of-sentence trailing terminal
check, `idx += 1`, and the `sequence_start_pos` reset. -/
def outerFinish (sentence : List Char) (s : ScanState)
    (b : Trie × Bool × Nat × Nat × Nat × List (String × Nat × Nat)) : ScanState :=
  match b with
  | (cd1, reset, seqEnd1, idx1, cc1, acc1) =>
    let acc2 :=
      if sentence.length ≤ idx1 + 1 then
        match cd1.terminal with
        | some v => acc1 ++ [(v, s.sequenceStartPos, sentence.length)]
        | none => acc1
      else acc1
    ⟨cd1, if reset then idx1 + 1 else s.sequenceStartPos, seqEnd1, idx1 + 1, cc1, acc2⟩

/-- One iteration of the outer `while idx < sentence_len` loop of
`extract_keywords` (lines 532-649 of the source): the boundary-character
branch (terminal check, lookahead, emission, reset), the literal-edge
branch, the outer fuzzy branch, and the skip-to-word-end branch
(`outerBranch`); then the end-of-sentence trailing terminal check,
`idx += 1`, and the `sequence_start_pos` reset (`outerFinish`).  Returns
`none` only on inner-loop fuel exhaustion, which is proved unreachable. -/
def outerStep (kp : KeywordProcessor) (sentence : List Char) (maxCost : Nat)
    (s : ScanState) : Option ScanState :=
  match outerBranch kp sentence maxCost s with
  | none => none
  | some b => some (outerFinish sentence s b)

/-- The outer scan loop, fuel-indexed; one fuel unit per iteration. -/
def outerLoopF (kp : KeywordProcessor) (sentence : List Char) (maxCost : Nat) :
    Nat → ScanState → Option (List (String × Nat × Nat))
  | 0, s => if s.idx < sentence.length then none else some s.acc
  | fuel + 1, s =>
    if s.idx < sentence.length then
      match outerStep kp sentence maxCost s with
      | none => none
      | some s1 => outerLoopF kp sentence maxCost fuel s1
    else some s.acc

/-- `extract_keywords` up to span translation: the raw matches with spans in
coordinates of the (possibly lowercased) sentence.  The outer fuel is the
length of the scanned sentence, which matches the claim that the scan is a
single input-length-bounded pass; `none` would mean the loop needed more
iterations than characters (proved impossible). -/
def KeywordProcessor.extractRaw (kp : KeywordProcessor) (sentence : List Char)
    (maxCost : Nat) : Option (List (String × Nat × Nat)) :=
  if sentence = [] then some []
  else
    let folded := if kp.case_sensitive then sentence else pyLower sentence
    outerLoopF kp folded maxCost folded.length
      ⟨kp.keyword_trie_dict, 0, 0, 0, maxCost, []⟩

/-- The offset list built by `get_index_mapping`'s loop, starting at index
`i`: each original character contributes its index once, `İ` twice. -/
def buildOffsets : List Char → Nat → List Nat
  | [], _ => []
  | c :: rest, i =>
    (if c = latinCapitalIWithDot then [i, i] else [i]) ++ buildOffsets rest (i + 1)

/-- `get_index_mapping`: `None` when case-sensitive or the sentence contains
no `İ`; otherwise the per-folded-position original indices. -/
def getIndexMapping (sentence : List Char) (caseSensitive : Bool) : Option (List Nat) :=
  if caseSensitive || !(sentence.contains latinCapitalIWithDot) then none
  else some (buildOffsets sentence 0)

/-- `_get_span_indices`: identity without a mapping, otherwise
`(mapping[start], mapping[end - 1] + 1)`. -/
def getSpanIndices (startIdx endIdx : Nat) (indexMapping : Option (List Nat)) : Nat × Nat :=
  match indexMapping with
  | none => (startIdx, endIdx)
  | some m => (m.getD startIdx 0, m.getD (endIdx - 1) 0 + 1)

/-- `extract_keywords(sentence, span_info=True, max_cost)`. -/
def KeywordProcessor.extractKeywordsSpan (kp : KeywordProcessor) (sentence : List Char)
    (maxCost : Nat) : List (String × Nat × Nat) :=
  let mapping := getIndexMapping sentence kp.case_sensitive
  ((kp.extractRaw sentence maxCost).getD []).map
    (fun r =>
      let p := getSpanIndices r.2.1 r.2.2 mapping
      (r.1, p.1, p.2))

/-- `extract_keywords(sentence, span_info=False, max_cost)`. -/
def KeywordProcessor.extract_keywords (kp : KeywordProcessor) (sentence : List Char)
    (maxCost : Nat) : List String :=
  (kp.extractKeywordsSpan sentence maxCost).map (fun r => r.1)

/-- Whether some child edge has the given key. -/
def Children.hasKey (ch : Children) (c : Char) : Bool :=
  (ch.get? c).isSome

mutual

/-- Well-formedness: every children list has pairwise-distinct keys, as
Python dicts do by construction.  Every state reachable through the API
satisfies this. -/
def Trie.nodupKeys : Trie → Bool
  | .node _ ch => ch.nodupKeys

/-- Pairwise-distinct keys along a children list and inside its subtries. -/
def Children.nodupKeys : Children → Bool
  | .nil => true
  | .cons c t rest => !(rest.hasKey c) && t.nodupKeys && rest.nodupKeys

end

/-- Whether a structured-source value is the expected list of variants. -/
def DictVal.isList : DictVal → Bool
  | .vlist _ => true
  | .vstr _ => false

/-- The effect of loading a prefix of well-formed (list-valued) entries. -/
def applyEntries (kp : KeywordProcessor) : List (String × DictVal) → KeywordProcessor
  | [] => kp
  | (cleanName, DictVal.vlist kws) :: rest => applyEntries (addEntry kp cleanName kws) rest
  | (_, DictVal.vstr _) :: rest => applyEntries kp rest

/-- Observational equivalence of tries: same terminal at the end of every
path through existing edges, and the same set of reachable paths.  Lookup
and non-fuzzy extraction cannot distinguish equivalent tries. -/
def PathEquiv (a b : Trie) : Prop :=
  ∀ p : List Char, a.obs p = b.obs p

/-- Every key of the first list is a key of the second. -/
def Children.keysSubset : Children → Children → Bool
  | .nil, _ => true
  | .cons c _ rest, other => other.hasKey c && rest.keysSubset other

/-- The two lists have the same key sets. -/
def Children.sameKeys (a b : Children) : Bool :=
  a.keysSubset b && b.keysSubset a

/-- Pair each child of the first list with the same-key child of the second;
`none` when some key is missing on the right. -/
def zipChildren : Children → Children → Option (List (Trie × Trie))
  | .nil, _ => some []
  | .cons c t rest, other =>
    match other.get? c with
    | some u =>
      match zipChildren rest other with
      | some l => some ((t, u) :: l)
      | none => none
    | none => none

/-- Worklist check of observational equivalence, fuel-indexed (`false` on
exhaustion): pop a pair, compare terminals and key sets, push the same-key
child pairs. -/
def equivLoop : Nat → List (Trie × Trie) → Bool
  | 0, _ => false
  | _ + 1, [] => true
  | fuel + 1, (Trie.node t1 ch1, Trie.node t2 ch2) :: rest =>
    if t1 = t2 then
      if ch1.sameKeys ch2 then
        match zipChildren ch1 ch2 with
        | some pairs => equivLoop fuel (pairs ++ rest)
        | none => false
      else false
    else false

/-- Total size of the subtries on a fuzzy DFS stack (the fuel the DFS can
consume). -/
def entriesSize : List (Char × Trie × List Nat × Nat) → Nat
  | [] => 0
  | e :: rest => e.2.1.size + entriesSize rest

/-- Termination measure of the inner lookahead loop at a fixed scan
position: the current node's size, except that the empty node (which the
fuzzy search swaps for the root) weighs more than the whole root. -/
def innerMeasure (root t : Trie) : Nat :=
  if t.isEmptyNode then root.size + 1 else t.size

/-- Build a case-insensitive matcher from (pattern, clean name) pairs in
order, as the example in the claim does. -/
def mkKP (l : List (List Char × String)) : KeywordProcessor :=
  l.foldl (fun kp p => (kp.add_keyword p.1 (some p.2)).1) (KeywordProcessor.init false)

/-- A demonstration trie for the fuzzy tie-breaking behaviour: `xb` (value
`X`) registered before `ab` (value `Y`), so the `x` branch is visited first
in child-iteration order. -/
def fuzzyDemoTrie : Trie :=
  (((KeywordProcessor.init true).add_keyword "xb".toList (some "X")).1.add_keyword
    "ab".toList (some "Y")).1.keyword_trie_dict

/-- The case-folded key under which an entry's pattern is stored
(`if not self.case_sensitive: keyword = keyword.lower()`). -/
def foldEntryKey (cs : Bool) (p : List Char × String) : List Char :=
  if cs then p.1 else pyLower p.1

/-- The effect of one `add_keyword(pattern, clean_name)` call on the trie
alone: a no-op when the pattern or the clean name is falsy, otherwise an
`addPath` at the folded key. -/
def addStep (cs : Bool) (t : Trie) (p : List Char × String) : Trie :=
  if p.1 ≠ [] ∧ optTruthy (some p.2) = true then (t.addPath (foldEntryKey cs p) p.2).1
  else t

/-- The effect on the trie of registering a list of entries in order. -/
def addFold (cs : Bool) : Trie → List (List Char × String) → Trie
  | t, [] => t
  | t, p :: rest => addFold cs (addStep cs t p) rest

/-- The pattern list of the longest-match example of the claim, in its
stated insertion order. -/
def c1Base : List (List Char × String) :=
  [("NY".toList, "new york"), ("new-york".toList, "new york"),
    ("SF".toList, "san francisco")]

/-- The span `m = (value, start, end)` is a longest match at its start
position: no registered pattern that begins at `start` and ends at a word
boundary (or at the end of the sentence) ends strictly beyond `end`.
`sentence` is the scanned (case-folded) sentence; a pattern ends at `j`
when the `j - start` characters from `start` spell a path of the trie
whose final node carries a terminal. -/
def LongestGood (kp : KeywordProcessor) (sentence : List Char)
    (m : String × Nat × Nat) : Prop :=
  ∀ j, j ≤ sentence.length →
    (j = sentence.length ∨ kp.isWordChar (sentence.getD j (Char.ofNat 0)) = false) →
    (kp.keyword_trie_dict.lookupTerm
        ((sentence.drop m.2.1).take (j - m.2.1))).isSome = true →
    j ≤ m.2.2

/-- Invariant of the outer scan state at a zero budget: the budget is
still zero, the candidate start does not exceed the scan position, and the
current node is the trie node reached from the root along the characters
scanned since `sequence_start_pos`. -/
def ScanInv (kp : KeywordProcessor) (sentence : List Char) (s : ScanState) : Prop :=
  s.currCost = 0 ∧
  s.sequenceStartPos ≤ s.idx ∧
  kp.keyword_trie_dict.lookupNode
      ((sentence.drop s.sequenceStartPos).take (s.idx - s.sequenceStartPos))
    = some s.currentDict

/-! ## Lemmas: children lists -/

@[simp] theorem terminal_node (t : Option String) (ch : Children) :
    (Trie.node t ch).terminal = t := rfl

@[simp] theorem children_node (t : Option String) (ch : Children) :
    (Trie.node t ch).children = ch := rfl

theorem get?_replace_ne (c c' : Char) (u : Trie) (h : c' ≠ c) :
    ∀ ch : Children, (ch.replace c u).get? c' = ch.get? c'
  | .nil => rfl
  | .cons k t rest => by
    by_cases hk : k = c
    · subst hk
      have hkc : k ≠ c' := fun hh => h hh.symm
      simp [Children.replace, Children.get?, hkc]
    · by_cases hk' : k = c'
      · simp [Children.replace, Children.get?, hk, hk', h]
      · simp [Children.replace, Children.get?, hk, hk',
          get?_replace_ne c c' u h rest]

theorem get?_replace_self (c : Char) (u : Trie) :
    ∀ ch : Children, (ch.get? c).isSome → (ch.replace c u).get? c = some u
  | .nil => by simp [Children.get?]
  | .cons k t rest => by
    by_cases hk : k = c
    · subst hk
      simp [Children.replace, Children.get?]
    · simp [Children.replace, Children.get?, hk]
      exact get?_replace_self c u rest

theorem get?_append_ne (c c' : Char) (u : Trie) (h : c' ≠ c) :
    ∀ ch : Children, (ch.append c u).get? c' = ch.get? c'
  | .nil => by simp [Children.append, Children.get?, Ne.symm h]
  | .cons k t rest => by
    by_cases hk : k = c'
    · simp [Children.append, Children.get?, hk]
    · simp [Children.append, Children.get?, hk, get?_append_ne c c' u h rest]

theorem get?_append_self (c : Char) (u : Trie) :
    ∀ ch : Children, ch.get? c = none → (ch.append c u).get? c = some u
  | .nil => by simp [Children.append, Children.get?]
  | .cons k t rest => by
    by_cases hk : k = c
    · simp [Children.get?, hk]
    · simp [Children.append, Children.get?, hk]
      exact get?_append_self c u rest

theorem get?_erase_ne (c c' : Char) (h : c' ≠ c) :
    ∀ ch : Children, (ch.erase c).get? c' = ch.get? c'
  | .nil => rfl
  | .cons k t rest => by
    by_cases hk : k = c
    · subst hk
      have hkc : k ≠ c' := fun hh => h hh.symm
      simp [Children.erase, Children.get?, hkc]
    · by_cases hk' : k = c'
      · simp [Children.erase, Children.get?, hk, hk', h]
      · simp [Children.erase, Children.get?, hk, hk', get?_erase_ne c c' h rest]

theorem get?_erase_self (c : Char) :
    ∀ ch : Children, ch.nodupKeys = true → (ch.erase c).get? c = none
  | .nil => by intro _; rfl
  | .cons k t rest => by
    intro hnd
    simp only [Children.nodupKeys, Bool.and_eq_true, Bool.not_eq_true'] at hnd
    by_cases hk : k = c
    · simp only [Children.erase, if_pos hk]
      have h1 := hnd.1.1
      rw [hk] at h1
      cases hget : rest.get? c with
      | none => rfl
      | some w =>
        rw [Children.hasKey, hget] at h1
        simp at h1
    · simp [Children.erase, Children.get?, hk]
      exact get?_erase_self c rest hnd.2

theorem nodup_get? (c : Char) :
    ∀ ch : Children, ch.nodupKeys = true → ∀ w, ch.get? c = some w →
      w.nodupKeys = true
  | .nil => by intro _ w hw; simp [Children.get?] at hw
  | .cons k t rest => by
    intro hnd w hw
    simp only [Children.nodupKeys, Bool.and_eq_true] at hnd
    by_cases hk : k = c
    · simp only [Children.get?, if_pos hk] at hw
      cases hw
      exact hnd.1.2
    · simp only [Children.get?, if_neg hk] at hw
      exact nodup_get? c rest hnd.2 w hw

/-! ## Lemmas: terminal counting -/

theorem countTerminals_replace (c : Char) (u : Trie) :
    ∀ ch : Children, ∀ w, ch.get? c = some w →
      (ch.replace c u).countTerminals + w.countTerminals
        = ch.countTerminals + u.countTerminals
  | .nil => by intro w hw; simp [Children.get?] at hw
  | .cons k t rest => by
    intro w hw
    by_cases hk : k = c
    · simp only [Children.get?, if_pos hk] at hw
      cases hw
      simp only [Children.replace, if_pos hk, Children.countTerminals]
      omega
    · simp only [Children.get?, if_neg hk] at hw
      simp only [Children.replace, if_neg hk, Children.countTerminals]
      have := countTerminals_replace c u rest w hw
      omega

theorem countTerminals_append (c : Char) (u : Trie) :
    ∀ ch : Children,
      (ch.append c u).countTerminals = ch.countTerminals + u.countTerminals
  | .nil => by simp [Children.append, Children.countTerminals]
  | .cons k t rest => by
    simp only [Children.append, Children.countTerminals,
      countTerminals_append c u rest]
    omega

theorem countTerminals_erase (c : Char) :
    ∀ ch : Children, ∀ w, ch.get? c = some w →
      (ch.erase c).countTerminals + w.countTerminals = ch.countTerminals
  | .nil => by intro w hw; simp [Children.get?] at hw
  | .cons k t rest => by
    intro w hw
    by_cases hk : k = c
    · simp only [Children.get?, if_pos hk] at hw
      cases hw
      simp only [Children.erase, if_pos hk, Children.countTerminals]
      omega
    · simp only [Children.get?, if_neg hk] at hw
      simp only [Children.erase, if_neg hk, Children.countTerminals]
      have := countTerminals_erase c rest w hw
      omega

/-! ## Lemmas: lookup -/

@[simp] theorem lookupTerm_nil (term : Option String) (ch : Children) :
    (Trie.node term ch).lookupTerm [] = term := rfl

theorem lookupTerm_cons_some (term : Option String) (ch : Children) (c : Char)
    (cs : List Char) (u : Trie) (h : ch.get? c = some u) :
    (Trie.node term ch).lookupTerm (c :: cs) = u.lookupTerm cs := by
  simp [Trie.lookupTerm, Trie.lookupNode, h]

theorem lookupTerm_cons_none (term : Option String) (ch : Children) (c : Char)
    (cs : List Char) (h : ch.get? c = none) :
    (Trie.node term ch).lookupTerm (c :: cs) = none := by
  simp [Trie.lookupTerm, Trie.lookupNode, h]

theorem lookupTerm_emptyNode (p : List Char) : Trie.emptyNode.lookupTerm p = none := by
  cases p with
  | nil => rfl
  | cons c cs => exact lookupTerm_cons_none none .nil c cs rfl

/-! ## Lemmas: addPath -/

theorem addPath_countTerminals (v : String) :
    ∀ (p : List Char) (t : Trie),
      (t.addPath p v).1.countTerminals
        = t.countTerminals + (if (t.addPath p v).2 then 1 else 0)
  | [], .node term ch => by
    cases term with
    | none =>
      simp [Trie.addPath, Trie.countTerminals, Option.isNone]
      omega
    | some v =>
      simp [Trie.addPath, Trie.countTerminals, Option.isNone]
  | c :: cs, .node term ch => by
    cases hget : ch.get? c with
    | some child =>
      have ih := addPath_countTerminals v cs child
      simp only [Trie.addPath, hget, Trie.countTerminals]
      have hrep := countTerminals_replace c (child.addPath cs v).1 ch child hget
      omega
    | none =>
      have ih := addPath_countTerminals v cs Trie.emptyNode
      simp only [Trie.addPath, hget, Trie.countTerminals]
      have happ := countTerminals_append c (Trie.emptyNode.addPath cs v).1 ch
      have hz : Trie.emptyNode.countTerminals = 0 := rfl
      omega

theorem addPath_lookupTerm_self (v : String) :
    ∀ (p : List Char) (t : Trie), (t.addPath p v).1.lookupTerm p = some v
  | [], .node term ch => rfl
  | c :: cs, .node term ch => by
    cases hget : ch.get? c with
    | some child =>
      simp only [Trie.addPath, hget]
      rw [lookupTerm_cons_some term _ c cs (child.addPath cs v).1
        (get?_replace_self c _ ch (by simp [hget]))]
      exact addPath_lookupTerm_self v cs child
    | none =>
      simp only [Trie.addPath, hget]
      rw [lookupTerm_cons_some term _ c cs (Trie.emptyNode.addPath cs v).1
        (get?_append_self c _ ch hget)]
      exact addPath_lookupTerm_self v cs Trie.emptyNode

theorem addPath_isNew (v : String) :
    ∀ (p : List Char) (t : Trie), (t.addPath p v).2 = true ↔ t.lookupTerm p = none
  | [], .node term ch => by
    cases term <;> simp [Trie.addPath, Option.isNone]
  | c :: cs, .node term ch => by
    cases hget : ch.get? c with
    | some child =>
      simp only [Trie.addPath, hget]
      rw [lookupTerm_cons_some term ch c cs child hget]
      exact addPath_isNew v cs child
    | none =>
      simp only [Trie.addPath, hget]
      rw [lookupTerm_cons_none term ch c cs hget]
      simp [addPath_isNew v cs Trie.emptyNode, lookupTerm_emptyNode]

/-! ## Lemmas: removeAux -/

theorem removeAux_none_iff :
    ∀ (p : List Char) (t : Trie), t.removeAux p = none ↔ t.lookupTerm p = none
  | [], .node term ch => by
    cases term <;> simp [Trie.removeAux]
  | c :: cs, .node term ch => by
    cases hget : ch.get? c with
    | some child =>
      rw [lookupTerm_cons_some term ch c cs child hget]
      rw [← removeAux_none_iff cs child]
      simp only [Trie.removeAux, hget]
      cases child.removeAux cs with
      | none => simp
      | some r =>
        cases r with
        | mk t1 cont => cases cont <;> simp
    | none =>
      rw [lookupTerm_cons_none term ch c cs hget]
      simp [Trie.removeAux, hget]

theorem children_length_zero : ∀ ch : Children, ch.length = 0 → ch = .nil
  | .nil, _ => rfl
  | .cons k t rest, h => by
    simp only [Children.length] at h
    omega

theorem get?_some_length_pos (c : Char) :
    ∀ (ch : Children) (w : Trie), ch.get? c = some w → 1 ≤ ch.length
  | .nil, w, h => by simp [Children.get?] at h
  | .cons k t rest, w, h => by
    simp only [Children.length]
    omega

theorem single_entry (c : Char) :
    ∀ (ch : Children) (w : Trie), ch.length = 1 → ch.get? c = some w →
      ch = .cons c w .nil
  | .nil, w, hl, h => by simp [Children.get?] at h
  | .cons k t rest, w, hl, h => by
    simp only [Children.length] at hl
    have hrest : rest = .nil := children_length_zero rest (by omega)
    subst hrest
    by_cases hk : k = c
    · subst hk
      simp [Children.get?] at h
      rw [h]
    · simp [Children.get?, hk] at h

@[simp] theorem keyCount_node (term : Option String) (ch : Children) :
    (Trie.node term ch).keyCount = ch.length + (if term.isSome then 1 else 0) := rfl

theorem removeAux_count :
    ∀ (p : List Char) (t : Trie) (r1 : Trie) (r2 : Bool),
      t.removeAux p = some (r1, r2) →
      r1.countTerminals + 1 = t.countTerminals ∧
        (r2 = true → r1.countTerminals = 0)
  | [], .node term ch, r1, r2 => by
    intro h
    cases term with
    | none => simp [Trie.removeAux] at h
    | some v =>
      simp only [Trie.removeAux] at h
      obtain ⟨h1, h2⟩ := h
      refine ⟨by simp [Trie.countTerminals]; omega, ?_⟩
      intro hcont
      have hk1 : (Trie.node (some v) ch).keyCount = 1 := by simpa using hcont
      simp [keyCount_node] at hk1
      have : ch = .nil := children_length_zero ch (by omega)
      subst this
      rfl
  | c :: cs, .node term ch, r1, r2 => by
    intro h
    cases hget : ch.get? c with
    | none => simp [Trie.removeAux, hget] at h
    | some child =>
      simp only [Trie.removeAux, hget] at h
      cases hrec : child.removeAux cs with
      | none => simp [hrec] at h
      | some rc =>
        obtain ⟨rc1, rc2⟩ := rc
        have ih := removeAux_count cs child rc1 rc2 hrec
        rw [hrec] at h
        cases rc2 with
        | true =>
          obtain ⟨h1, h2⟩ := h
          have hch := countTerminals_erase c ch child hget
          have hc0 : rc1.countTerminals = 0 := ih.2 rfl
          refine ⟨?_, ?_⟩
          · simp only [Trie.countTerminals]
            omega
          · intro hcont
            have hkc : (Trie.node term ch).keyCount = 1 := by simpa using hcont
            simp only [keyCount_node] at hkc
            have hge := get?_some_length_pos c ch child hget
            have hterm : term = none := by
              cases term with
              | none => rfl
              | some v => simp at hkc; omega
            subst hterm
            have hl : ch.length = 1 := by
              simp at hkc
              omega
            have := single_entry c ch child hl hget
            subst this
            simp [Children.erase, Trie.countTerminals, Children.countTerminals]
        | false =>
          obtain ⟨h1, h2⟩ := h
          have hrep := countTerminals_replace c rc1 ch child hget
          refine ⟨?_, ?_⟩
          · simp only [Trie.countTerminals]
            omega
          · intro hcont
            simp at hcont

theorem removeAux_lookup :
    ∀ (p : List Char) (t : Trie) (r1 : Trie) (r2 : Bool), t.nodupKeys = true →
      t.removeAux p = some (r1, r2) →
      r1.lookupTerm p = none ∧
      (∀ q, q ≠ p → r1.lookupTerm q = t.lookupTerm q) ∧
      (r2 = true → ∀ q, q ≠ p → t.lookupTerm q = none)
  | [], .node term ch, r1, r2 => by
    intro hnd h
    cases term with
    | none => simp [Trie.removeAux] at h
    | some v =>
      simp only [Trie.removeAux] at h
      obtain ⟨h1, h2⟩ := h
      refine ⟨rfl, ?_, ?_⟩
      · intro q hq
        cases q with
        | nil => exact absurd rfl hq
        | cons c qs =>
          cases hg : ch.get? c with
          | some u =>
            rw [lookupTerm_cons_some none ch c qs u hg,
              lookupTerm_cons_some (some v) ch c qs u hg]
          | none =>
            rw [lookupTerm_cons_none none ch c qs hg,
              lookupTerm_cons_none (some v) ch c qs hg]
      · intro hcont q hq
        have hk1 : (Trie.node (some v) ch).keyCount = 1 := by simpa using hcont
        simp [keyCount_node] at hk1
        have : ch = .nil := children_length_zero ch (by omega)
        subst this
        cases q with
        | nil => exact absurd rfl hq
        | cons c qs => exact lookupTerm_cons_none (some v) .nil c qs rfl
  | c :: cs, .node term ch, r1, r2 => by
    intro hnd h
    have hndch : ch.nodupKeys = true := hnd
    cases hget : ch.get? c with
    | none => simp [Trie.removeAux, hget] at h
    | some child =>
      simp only [Trie.removeAux, hget] at h
      cases hrec : child.removeAux cs with
      | none => simp [hrec] at h
      | some rc =>
        obtain ⟨rc1, rc2⟩ := rc
        have hndc : child.nodupKeys = true := nodup_get? c ch hndch child hget
        have ih := removeAux_lookup cs child rc1 rc2 hndc hrec
        rw [hrec] at h
        cases rc2 with
        | true =>
          obtain ⟨h1, h2⟩ := h
          have herase : (ch.erase c).get? c = none := get?_erase_self c ch hndch
          refine ⟨lookupTerm_cons_none term _ c cs herase, ?_, ?_⟩
          · intro q hq
            cases q with
            | nil => rfl
            | cons c1 qs =>
              by_cases hcc : c1 = c
              · subst hcc
                rw [lookupTerm_cons_none term _ c1 qs herase,
                  lookupTerm_cons_some term ch c1 qs child hget]
                have hqs : qs ≠ cs := fun hh => hq (by rw [hh])
                exact (ih.2.2 rfl qs hqs).symm
              · cases hg : ch.get? c1 with
                | some u =>
                  rw [lookupTerm_cons_some term _ c1 qs u
                    (by rw [get?_erase_ne c c1 hcc ch]; exact hg),
                    lookupTerm_cons_some term ch c1 qs u hg]
                | none =>
                  rw [lookupTerm_cons_none term _ c1 qs
                    (by rw [get?_erase_ne c c1 hcc ch]; exact hg),
                    lookupTerm_cons_none term ch c1 qs hg]
          · intro hcont q hq
            have hkc : (Trie.node term ch).keyCount = 1 := by simpa using hcont
            simp only [keyCount_node] at hkc
            have hge := get?_some_length_pos c ch child hget
            have hterm : term = none := by
              cases term with
              | none => rfl
              | some v => simp at hkc; omega
            subst hterm
            have hl : ch.length = 1 := by
              simp at hkc
              omega
            have := single_entry c ch child hl hget
            subst this
            cases q with
            | nil => rfl
            | cons c1 qs =>
              by_cases hcc : c1 = c
              · subst hcc
                rw [lookupTerm_cons_some none _ c1 qs child hget]
                have hqs : qs ≠ cs := fun hh => hq (by rw [hh])
                exact ih.2.2 rfl qs hqs
              · refine lookupTerm_cons_none none _ c1 qs ?_
                have hcc2 : ¬ c = c1 := fun hh => hcc hh.symm
                simp [Children.get?, hcc2]
        | false =>
          obtain ⟨h1, h2⟩ := h
          have hrepl : (ch.replace c rc1).get? c = some rc1 :=
            get?_replace_self c rc1 ch (by simp [hget])
          refine ⟨?_, ?_, ?_⟩
          · rw [lookupTerm_cons_some term _ c cs rc1 hrepl]
            exact ih.1
          · intro q hq
            cases q with
            | nil => rfl
            | cons c1 qs =>
              by_cases hcc : c1 = c
              · subst hcc
                rw [lookupTerm_cons_some term _ c1 qs rc1 hrepl,
                  lookupTerm_cons_some term ch c1 qs child hget]
                have hqs : qs ≠ cs := fun hh => hq (by rw [hh])
                exact ih.2.1 qs hqs
              · cases hg : ch.get? c1 with
                | some u =>
                  rw [lookupTerm_cons_some term _ c1 qs u
                    (by rw [get?_replace_ne c c1 rc1 hcc ch]; exact hg),
                    lookupTerm_cons_some term ch c1 qs u hg]
                | none =>
                  rw [lookupTerm_cons_none term _ c1 qs
                    (by rw [get?_replace_ne c c1 rc1 hcc ch]; exact hg),
                    lookupTerm_cons_none term ch c1 qs hg]
          · intro hcont
            simp at hcont

/-! ## Lemmas: the mutation API -/

theorem setItem_spec (kp : KeywordProcessor) (k : List Char) (v : Option String) :
    kp.setItem k v = (kp, false) ∨
    ∃ val : String,
      kp.setItem k v =
        (⟨kp.case_sensitive, kp.non_word_boundaries,
          (kp.keyword_trie_dict.addPath (kp.foldKey k) val).1,
          kp.terms_in_trie +
            (if (kp.keyword_trie_dict.addPath (kp.foldKey k) val).2 then 1 else 0)⟩,
         (kp.keyword_trie_dict.addPath (kp.foldKey k) val).2) := by
  by_cases hg : k ≠ [] ∧ optTruthy (if v = none ∧ k ≠ [] then some (String.mk k) else v)
  · right
    refine ⟨(if v = none ∧ k ≠ [] then some (String.mk k) else v).getD "", ?_⟩
    simp only [KeywordProcessor.setItem, if_pos hg]
  · left
    simp only [KeywordProcessor.setItem, if_neg hg]

/-! ## Claim theorems: mutation -/

/-- C3: the live terminal count returned by `len()` equals the number of
registered patterns (`countTerminals` of the trie), this invariant is
preserved by every `add_keyword` and `remove_keyword` call, and the count
moves exactly as the claim says: `+1` on a newly-registered pattern, `0` on
a re-registration or failed call, `-1` on a successful removal. -/
theorem claim_C3_count_invariant (kp : KeywordProcessor)
    (h : kp.lenKP = kp.keyword_trie_dict.countTerminals) :
    (∀ k v,
      (kp.add_keyword k v).1.lenKP
        = (kp.add_keyword k v).1.keyword_trie_dict.countTerminals ∧
      ((kp.add_keyword k v).2 = true →
        (kp.add_keyword k v).1.lenKP = kp.lenKP + 1) ∧
      ((kp.add_keyword k v).2 = false →
        (kp.add_keyword k v).1.lenKP = kp.lenKP)) ∧
    (∀ k,
      (kp.remove_keyword k).1.lenKP
        = (kp.remove_keyword k).1.keyword_trie_dict.countTerminals ∧
      ((kp.remove_keyword k).2 = true →
        (kp.remove_keyword k).1.lenKP = kp.lenKP - 1) ∧
      ((kp.remove_keyword k).2 = false →
        (kp.remove_keyword k).1.lenKP = kp.lenKP)) := by
  constructor
  · intro k v
    rw [KeywordProcessor.add_keyword]
    rcases setItem_spec kp k v with hs | ⟨val, hs⟩
    · rw [hs]
      exact ⟨h, by intro hc; simp at hc, fun _ => rfl⟩
    · rw [hs]
      have hc := addPath_countTerminals val (kp.foldKey k) kp.keyword_trie_dict
      rw [KeywordProcessor.lenKP] at h
      cases hnew : (kp.keyword_trie_dict.addPath (kp.foldKey k) val).2 with
      | true =>
        rw [hnew] at hc
        refine ⟨?_, fun _ => ?_, fun hend => by simp at hend⟩
        · simp [KeywordProcessor.lenKP, hnew, hc]
          omega
        · simp [KeywordProcessor.lenKP, hnew]
      | false =>
        rw [hnew] at hc
        refine ⟨?_, fun hend => by simp at hend, fun _ => ?_⟩
        · simp [KeywordProcessor.lenKP, hnew, hc]
          omega
        · simp [KeywordProcessor.lenKP, hnew]
  · intro k
    rw [KeywordProcessor.remove_keyword]
    by_cases hk : k ≠ []
    · rw [KeywordProcessor.delItem, if_pos hk]
      cases hrem : kp.keyword_trie_dict.removeAux (kp.foldKey k) with
      | none => exact ⟨h, by intro hc; simp at hc, fun _ => rfl⟩
      | some r =>
        obtain ⟨r1, r2⟩ := r
        have hc := (removeAux_count (kp.foldKey k) kp.keyword_trie_dict r1 r2 hrem).1
        refine ⟨?_, fun _ => rfl, fun hend => by simp at hend⟩
        simp only [KeywordProcessor.lenKP]
        rw [KeywordProcessor.lenKP] at h
        omega
    · rw [KeywordProcessor.delItem, if_neg hk]
      exact ⟨h, by intro hc; simp at hc, fun _ => rfl⟩

/-- C3 witness: the invariant theorem applied at a concrete state. -/
theorem claim_C3_count_invariant_witness :
    ((KeywordProcessor.init false).add_keyword ['a'] none).1.lenKP
      = ((KeywordProcessor.init false).add_keyword ['a']
          none).1.keyword_trie_dict.countTerminals :=
  ((claim_C3_count_invariant (KeywordProcessor.init false) (by decide)).1 ['a'] none).1

/-- C4: removing a registered pattern returns `True`, makes its lookup
absent, and leaves every other pattern (in particular patterns sharing a
prefix) registered with its original value and still extractable; removing
an unregistered pattern returns `False` and leaves the state unchanged.
The well-formedness hypothesis (`nodupKeys`) holds for every state built
through the API, since Python dict keys are unique. -/
theorem claim_C4_removal :
    (∀ (kp : KeywordProcessor) (k : List Char),
      kp.keyword_trie_dict.nodupKeys = true → k ≠ [] →
      kp.containsKeyword k = true →
      (kp.remove_keyword k).2 = true ∧
      (kp.remove_keyword k).1.get_keyword k = none ∧
      (∀ q, kp.foldKey q ≠ kp.foldKey k →
        (kp.remove_keyword k).1.get_keyword q = kp.get_keyword q)) ∧
    (∀ (kp : KeywordProcessor) (k : List Char),
      kp.containsKeyword k = false → kp.remove_keyword k = (kp, false)) ∧
    ((mkKP [("big".toList, "B"), ("big apple".toList, "BA")]).remove_keyword
        "big apple".toList).1.get_keyword "big".toList = some "B" ∧
    ((mkKP [("big".toList, "B"), ("big apple".toList, "BA")]).remove_keyword
        "big apple".toList).1.get_keyword "big apple".toList = none ∧
    ((mkKP [("big".toList, "B"), ("big apple".toList, "BA")]).remove_keyword
        "big apple".toList).1.extract_keywords "a big deal".toList 0 = ["B"] := by
  refine ⟨?_, ?_, by decide, by decide, by decide⟩
  · intro kp k hnd hk hcontains
    have hterm : kp.keyword_trie_dict.lookupTerm (kp.foldKey k) ≠ none := by
      intro hnone
      rw [KeywordProcessor.containsKeyword, KeywordProcessor.getItem, hnone] at hcontains
      simp at hcontains
    cases hrem : kp.keyword_trie_dict.removeAux (kp.foldKey k) with
    | none => exact absurd ((removeAux_none_iff (kp.foldKey k) _).mp hrem) hterm
    | some r =>
      obtain ⟨r1, r2⟩ := r
      have hl := removeAux_lookup (kp.foldKey k) kp.keyword_trie_dict r1 r2 hnd hrem
      rw [KeywordProcessor.remove_keyword, KeywordProcessor.delItem, if_pos hk, hrem]
      refine ⟨rfl, ?_, ?_⟩
      · rw [KeywordProcessor.get_keyword, KeywordProcessor.getItem]
        exact hl.1
      · intro q hq
        rw [KeywordProcessor.get_keyword, KeywordProcessor.getItem,
          KeywordProcessor.get_keyword, KeywordProcessor.getItem]
        exact hl.2.1 (kp.foldKey q) hq
  · intro kp k hcontains
    rw [KeywordProcessor.remove_keyword, KeywordProcessor.delItem]
    by_cases hk : k ≠ []
    · rw [if_pos hk]
      have hterm : kp.keyword_trie_dict.lookupTerm (kp.foldKey k) = none := by
        rw [KeywordProcessor.containsKeyword, KeywordProcessor.getItem] at hcontains
        cases hx : kp.keyword_trie_dict.lookupTerm (kp.foldKey k) with
        | none => rfl
        | some v => rw [hx] at hcontains; simp at hcontains
      rw [(removeAux_none_iff (kp.foldKey k) _).mpr hterm]
    · rw [if_neg hk]

/-- C4 witness: the removal theorem applied at a concrete state. -/
theorem claim_C4_removal_witness :
    ((mkKP [("ab".toList, "x"), ("ac".toList, "y")]).remove_keyword "ab".toList).2
        = true ∧
    ((mkKP [("ab".toList, "x"), ("ac".toList, "y")]).remove_keyword
        "ab".toList).1.get_keyword "ab".toList = none := by
  have h := claim_C4_removal.1 (mkKP [("ab".toList, "x"), ("ac".toList, "y")])
    "ab".toList (by decide) (by decide) (by decide)
  exact ⟨h.1, h.2.1⟩

/-- C5 counterexample: `add_keyword("a")` with the value omitted (`None`)
is not a no-op — it returns `True` and registers the pattern, contradicting
the claim that a missing value makes the call a no-op returning `False`. -/
theorem claim_C5_counterexample :
    ((KeywordProcessor.init false).add_keyword ['a'] none).2 = true ∧
    ((KeywordProcessor.init false).add_keyword ['a'] none).1.get_keyword ['a']
      = some "a" := by
  decide

theorem setItem_empty (kp : KeywordProcessor) (v : Option String) :
    kp.setItem [] v = (kp, false) := by
  simp [KeywordProcessor.setItem]

theorem setItem_none_eq (kp : KeywordProcessor) (k : List Char) (hk : k ≠ []) :
    kp.setItem k none = kp.setItem k (some (String.mk k)) := by
  simp [KeywordProcessor.setItem, hk]

theorem setItem_some (kp : KeywordProcessor) (k : List Char) (val : String)
    (hk : k ≠ []) (hval : val ≠ "") :
    kp.setItem k (some val) =
      (⟨kp.case_sensitive, kp.non_word_boundaries,
        (kp.keyword_trie_dict.addPath (kp.foldKey k) val).1,
        kp.terms_in_trie +
          (if (kp.keyword_trie_dict.addPath (kp.foldKey k) val).2 then 1 else 0)⟩,
       (kp.keyword_trie_dict.addPath (kp.foldKey k) val).2) := by
  simp [KeywordProcessor.setItem, optTruthy, hk, hval]

/-- C5 amended: an empty pattern is a no-op returning `False` and never
raises; a missing (`None`) value with a non-empty pattern is not a no-op —
the value defaults to the pattern itself and the call behaves exactly like
a normal registration of that value. -/
theorem claim_C5_amended :
    (∀ (kp : KeywordProcessor) (v : Option String), kp.add_keyword [] v = (kp, false)) ∧
    (∀ (kp : KeywordProcessor) (k : List Char), k ≠ [] →
      kp.add_keyword k none = kp.add_keyword k (some (String.mk k))) := by
  constructor
  · intro kp v
    rw [KeywordProcessor.add_keyword]
    exact setItem_empty kp v
  · intro kp k hk
    rw [KeywordProcessor.add_keyword, KeywordProcessor.add_keyword]
    exact setItem_none_eq kp k hk

/-- C5 witness: the amended theorem applied at a concrete state. -/
theorem claim_C5_amended_witness :
    (KeywordProcessor.init false).add_keyword ['a'] none
      = (KeywordProcessor.init false).add_keyword ['a'] (some (String.mk ['a'])) :=
  claim_C5_amended.2 (KeywordProcessor.init false) ['a'] (by decide)

/-- C6 counterexample: loading `{"a": ["x"], "b": "oops"}` raises (the
second value is not a list) *and* leaves `"x"` registered: partial
registration is committed, contradicting the all-or-nothing claim. -/
theorem claim_C6_counterexample :
    (addKeywordsFromDict (KeywordProcessor.init false)
      [("a", DictVal.vlist [['x']]), ("b", DictVal.vstr "oops")]).2 = true ∧
    (addKeywordsFromDict (KeywordProcessor.init false)
      [("a", DictVal.vlist [['x']]), ("b", DictVal.vstr "oops")]).1.get_keyword ['x']
      = some "a" ∧
    (KeywordProcessor.init false).get_keyword ['x'] = none := by
  decide

/-- C6 amended: if some value of the dictionary is not a list, the call
raises `AttributeError`, but the registration is not all-or-nothing: every
entry before the first offending one has already been committed, and the
offending entry and everything after it are not processed. -/
theorem claim_C6_amended :
    ∀ (pre : List (String × DictVal)) (kp : KeywordProcessor) (k : String)
      (v : DictVal) (rest : List (String × DictVal)),
      (∀ e ∈ pre, e.2.isList = true) → v.isList = false →
      addKeywordsFromDict kp (pre ++ (k, v) :: rest) = (applyEntries kp pre, true)
  | [], kp, k, v, rest => by
    intro _ hv
    cases v with
    | vlist l => simp [DictVal.isList] at hv
    | vstr s => rfl
  | (c0, v0) :: pre1, kp, k, v, rest => by
    intro hpre hv
    have h0 : v0.isList = true := hpre (c0, v0) (List.mem_cons_self _ _)
    cases v0 with
    | vstr s => simp [DictVal.isList] at h0
    | vlist l =>
      have ih := claim_C6_amended pre1 (addEntry kp c0 l) k v rest
        (fun e he => hpre e (List.mem_cons_of_mem _ he)) hv
      simp only [List.cons_append, addKeywordsFromDict, applyEntries]
      exact ih

/-- C6 witness: the amended theorem applied at a concrete input. -/
theorem claim_C6_amended_witness :
    addKeywordsFromDict (KeywordProcessor.init false)
        ([("a", DictVal.vlist [['x']])] ++ ("b", DictVal.vstr "y") :: [])
      = (applyEntries (KeywordProcessor.init false) [("a", DictVal.vlist [['x']])],
         true) :=
  claim_C6_amended [("a", DictVal.vlist [['x']])] (KeywordProcessor.init false)
    "b" (DictVal.vstr "y") []
    (by intro e he; simp at he; subst he; rfl) rfl

/-- C10 counterexample: after `add_keyword("A")` on a case-insensitive
matcher, the stored clean value is the original `"A"`, not the case-folded
`"a"` the claim predicts. -/
theorem claim_C10_counterexample :
    ((KeywordProcessor.init false).add_keyword ['A'] none).1.get_keyword ['A']
      = some "A" ∧
    ((KeywordProcessor.init false).add_keyword ['A'] none).1.get_keyword ['A']
      ≠ some "a" := by
  decide

/-- C10 amended: `add_keyword(p)` with the value omitted registers `p` with
`p` itself — exactly as passed, *not* case-folded — as the clean value;
afterwards `get_keyword(p)` returns that value, and the call returns `True`
when `p` was not previously registered. -/
theorem claim_C10_default_value (kp : KeywordProcessor) (p : List Char) (hp : p ≠ []) :
    (kp.add_keyword p none).1.get_keyword p = some (String.mk p) ∧
    (kp.containsKeyword p = false → (kp.add_keyword p none).2 = true) := by
  have hmkne : String.mk p ≠ "" := fun hh => hp (by simpa using congrArg String.data hh)
  have heq : kp.add_keyword p none = kp.setItem p (some (String.mk p)) := by
    rw [KeywordProcessor.add_keyword]
    exact setItem_none_eq kp p hp
  rw [heq, setItem_some kp p (String.mk p) hp hmkne]
  constructor
  · rw [KeywordProcessor.get_keyword, KeywordProcessor.getItem]
    exact addPath_lookupTerm_self (String.mk p) (kp.foldKey p) kp.keyword_trie_dict
  · intro hcontains
    have hterm : kp.keyword_trie_dict.lookupTerm (kp.foldKey p) = none := by
      rw [KeywordProcessor.containsKeyword, KeywordProcessor.getItem] at hcontains
      cases hx : kp.keyword_trie_dict.lookupTerm (kp.foldKey p) with
      | none => rfl
      | some v => rw [hx] at hcontains; simp at hcontains
    exact (addPath_isNew (String.mk p) (kp.foldKey p) kp.keyword_trie_dict).mpr hterm

/-- C10 witness: the amended theorem applied at a concrete state. -/
theorem claim_C10_default_value_witness :
    ((KeywordProcessor.init false).add_keyword ['B'] none).1.get_keyword ['B']
      = some (String.mk ['B']) ∧
    ((KeywordProcessor.init false).containsKeyword ['B'] = false →
      ((KeywordProcessor.init false).add_keyword ['B'] none).2 = true) :=
  claim_C10_default_value (KeywordProcessor.init false) ['B'] (by decide)

/-! ## Lemmas: sizes and the fuzzy search -/

theorem size_pos : ∀ t : Trie, 1 ≤ t.size := by
  intro t
  cases t with
  | node term ch => simp [Trie.size]

theorem get?_size : ∀ (ch : Children) (c : Char) (t : Trie),
    ch.get? c = some t → t.size ≤ ch.totalSize
  | .nil, c, t => by simp [Children.get?]
  | .cons k u rest, c, t => by
    intro h
    by_cases hk : k = c
    · simp only [Children.get?, if_pos hk, Option.some.injEq] at h
      subst h
      simp [Children.totalSize]
    · simp only [Children.get?, if_neg hk] at h
      have := get?_size rest c t h
      simp only [Children.totalSize]
      omega

theorem size_node (term : Option String) (ch : Children) :
    (Trie.node term ch).size = 1 + ch.totalSize := by
  simp [Trie.size]

theorem get?_size_lt (t : Trie) (c : Char) (u : Trie)
    (h : t.children.get? c = some u) : u.size < t.size := by
  cases t with
  | node term ch =>
    have := get?_size ch c u (by simpa using h)
    rw [size_node]
    omega

theorem entriesSize_append : ∀ (a b : List (Char × Trie × List Nat × Nat)),
    entriesSize (a ++ b) = entriesSize a + entriesSize b
  | [], b => by simp [entriesSize]
  | e :: a, b => by
    have ih := entriesSize_append a b
    simp only [List.cons_append, List.append_eq, entriesSize] at ih ⊢
    omega

theorem entriesSize_toEntries : ∀ (ch : Children) (rows : List Nat) (d : Nat),
    entriesSize (ch.toEntries rows d) = ch.totalSize
  | .nil, _, _ => rfl
  | .cons c t rest, rows, d => by
    simp only [Children.toEntries, entriesSize, Children.totalSize,
      entriesSize_toEntries rest rows d]

theorem mem_toEntries_size : ∀ (ch : Children) (rows : List Nat) (d : Nat)
    (e : Char × Trie × List Nat × Nat), e ∈ ch.toEntries rows d →
    e.2.1.size ≤ ch.totalSize
  | .nil, _, _, e => by intro h; simp [Children.toEntries] at h
  | .cons c t rest, rows, d, e => by
    intro h
    simp only [Children.toEntries, List.mem_cons] at h
    rcases h with h | h
    · subst h
      simp [Children.totalSize]
    · have := mem_toEntries_size rest rows d e h
      simp only [Children.totalSize]
      omega

theorem levDFS_isSome (word : List Char) (mc : Nat) :
    ∀ (fuel : Nat) (stack : List (Char × Trie × List Nat × Nat)),
      entriesSize stack < fuel → levDFS word mc fuel stack ≠ none
  | 0, stack => by
    intro h
    omega
  | fuel + 1, [] => by
    intro _ h
    simp [levDFS] at h
  | fuel + 1, (c, t, rows, depth) :: stack => by
    intro hsz
    have ht1 := size_pos t
    simp only [entriesSize] at hsz
    simp only [levDFS]
    split
    · simp
    · split
      · refine levDFS_isSome word mc fuel _ ?_
        rw [entriesSize_append, entriesSize_toEntries]
        cases t with
        | node term ch =>
          rw [size_node] at hsz ht1
          simp only [children_node]
          omega
      · refine levDFS_isSome word mc fuel stack ?_
        omega

theorem levDFS_size_bound (word : List Char) (mc : Nat) :
    ∀ (fuel : Nat) (stack : List (Char × Trie × List Nat × Nat)) (B : Nat),
      (∀ e ∈ stack, e.2.1.size ≤ B) →
      ∀ n cost depth, levDFS word mc fuel stack = some (some (n, cost, depth)) →
        n.size ≤ B
  | 0, stack, B => by
    intro _ n cost depth h
    simp [levDFS] at h
  | fuel + 1, [], B => by
    intro _ n cost depth h
    simp [levDFS] at h
  | fuel + 1, (c, t, rows, depth0) :: stack, B => by
    intro hB n cost depth h
    simp only [levDFS] at h
    split at h
    · simp only [Option.some.injEq, Prod.mk.injEq] at h
      obtain ⟨h1, h2, h3⟩ := h
      subst h1
      exact hB (c, t, rows, depth0) (List.mem_cons_self _ _)
    · have htB : t.size ≤ B := hB (c, t, rows, depth0) (List.mem_cons_self _ _)
      split at h
      · refine levDFS_size_bound word mc fuel _ B ?_ n cost depth h
        intro e he
        rw [List.mem_append] at he
        rcases he with he | he
        · have h1 := mem_toEntries_size _ _ _ e he
          cases t with
          | node term ch =>
            rw [size_node] at htB
            simp only [children_node] at h1
            omega
        · exact hB e (List.mem_cons_of_mem _ he)
      · refine levDFS_size_bound word mc fuel stack B ?_ n cost depth h
        intro e he
        exact hB e (List.mem_cons_of_mem _ he)

theorem levDFS_sound (word : List Char) (mc : Nat) :
    ∀ (fuel : Nat) (stack : List (Char × Trie × List Nat × Nat))
      (n : Trie) (cost depth : Nat),
      levDFS word mc fuel stack = some (some (n, cost, depth)) →
      stopCrit n = true ∧ cost ≤ mc
  | 0, stack, n, cost, depth => by
    intro h
    simp [levDFS] at h
  | fuel + 1, [], n, cost, depth => by
    intro h
    simp [levDFS] at h
  | fuel + 1, (c, t, rows, depth0) :: stack, n, cost, depth => by
    intro h
    simp only [levDFS] at h
    split at h
    · rename_i hcond
      simp only [Option.some.injEq, Prod.mk.injEq] at h
      obtain ⟨h1, h2, h3⟩ := h
      subst h1
      subst h2
      refine ⟨hcond.2, ?_⟩
      by_cases hw : word = []
      · simp [hw]
      · simp only [hw, if_neg, if_false]
        simpa [hw] using hcond.1
    · split at h
      · exact levDFS_sound word mc fuel _ n cost depth h
      · exact levDFS_sound word mc fuel stack n cost depth h

theorem children_totalSize_lt (t : Trie) : t.children.totalSize < t.size := by
  cases t with
  | node term ch =>
    rw [size_node]
    simp only [children_node]
    omega

theorem levenshteinFirstRaw_isSome (root : Trie) (word : List Char) (mc : Nat)
    (start : Trie) : levenshteinFirstRaw root word mc start ≠ none := by
  rw [levenshteinFirstRaw]
  refine levDFS_isSome word mc _ _ ?_
  rw [entriesSize_toEntries]
  exact children_totalSize_lt (orRoot root start)

theorem levenshteinFirst_eq_raw (root : Trie) (word : List Char) (mc : Nat)
    (start : Trie) :
    levenshteinFirstRaw root word mc start
      = some (levenshteinFirst root word mc start) := by
  cases h : levenshteinFirstRaw root word mc start with
  | none => exact absurd h (levenshteinFirstRaw_isSome root word mc start)
  | some v => rw [levenshteinFirst, h, Option.getD_some]

theorem levenshteinFirst_size (root : Trie) (word : List Char) (mc : Nat)
    (start : Trie) (n : Trie) (cost depth : Nat)
    (h : levenshteinFirst root word mc start = some (n, cost, depth)) :
    n.size < (orRoot root start).size := by
  have hraw : levenshteinFirstRaw root word mc start = some (some (n, cost, depth)) := by
    rw [levenshteinFirst_eq_raw, h]
  rw [levenshteinFirstRaw] at hraw
  have hb := levDFS_size_bound word mc _ _ (orRoot root start).children.totalSize
    (fun e he => mem_toEntries_size _ _ 1 e he) n cost depth hraw
  have hlt := children_totalSize_lt (orRoot root start)
  omega

theorem levenshteinFirst_sound (root : Trie) (word : List Char) (mc : Nat)
    (start : Trie) (n : Trie) (cost depth : Nat)
    (h : levenshteinFirst root word mc start = some (n, cost, depth)) :
    stopCrit n = true ∧ cost ≤ mc := by
  have hraw : levenshteinFirstRaw root word mc start = some (some (n, cost, depth)) := by
    rw [levenshteinFirst_eq_raw, h]
  rw [levenshteinFirstRaw] at hraw
  exact levDFS_sound word mc _ _ n cost depth hraw

/-! ## Claim theorem: the fuzzy search -/

/-- C8: every node returned by the fuzzy search satisfies the accept
condition — it is terminal or its next expected character is a whitespace
boundary (`stopCrit`), with returned accumulated cost within the budget —
and the search returns the *first* accepting node in trie child-iteration
order (depth-first), not the globally minimal-cost one: on `fuzzyDemoTrie`
(`xb ↦ X` inserted before `ab ↦ Y`) the search for `ab` with budget 1
returns the `xb` terminal at cost 1 and depth 2, even though the trie
contains the exact, cost-0 path `ab`. -/
theorem claim_C8_fuzzy_accept :
    (∀ (root : Trie) (word : List Char) (mc : Nat) (start n : Trie)
      (cost depth : Nat),
      levenshteinFirst root word mc start = some (n, cost, depth) →
      stopCrit n = true ∧ cost ≤ mc) ∧
    ((levenshteinFirst fuzzyDemoTrie "ab".toList 1 fuzzyDemoTrie).map
        (fun r => (r.1.terminal, r.2.1, r.2.2)) = some (some "X", 1, 2) ∧
      fuzzyDemoTrie.lookupTerm "ab".toList = some "Y") := by
  refine ⟨?_, by decide, by decide⟩
  intro root word mc start n cost depth h
  exact levenshteinFirst_sound root word mc start n cost depth h

/-- C8 witness: the soundness half applied at the demonstration trie. -/
theorem claim_C8_fuzzy_accept_witness :
    stopCrit (Trie.node (some "X") Children.nil) = true ∧ 1 ≤ 1 :=
  claim_C8_fuzzy_accept.1 fuzzyDemoTrie "ab".toList 1 fuzzyDemoTrie
    (Trie.node (some "X") Children.nil) 1 2 rfl

/-! ## Lemmas: the inner lookahead loop -/

theorem takeWhile_length_le (p : Char → Bool) :
    ∀ l : List Char, (l.takeWhile p).length ≤ l.length
  | [] => by simp
  | c :: l => by
    by_cases hc : p c
    · simp only [List.takeWhile_cons, hc, if_pos, List.length_cons]
      have := takeWhile_length_le p l
      omega
    · simp [List.takeWhile_cons, hc]

theorem get_next_word_le (kp : KeywordProcessor) (l : List Char) :
    (kp.get_next_word l).length ≤ l.length := by
  rw [KeywordProcessor.get_next_word]
  exact takeWhile_length_le _ l

theorem get_next_word_drop_le (kp : KeywordProcessor) (sentence : List Char) (i : Nat) :
    (kp.get_next_word (sentence.drop i)).length ≤ sentence.length - i := by
  have := get_next_word_le kp (sentence.drop i)
  simpa using this

theorem innerMeasure_pos (root t : Trie) : 1 ≤ innerMeasure root t := by
  rw [innerMeasure]
  split
  · omega
  · exact size_pos t

theorem isEmptyNode_false_of_child (t : Trie) (c : Char) (u : Trie)
    (h : t.children.get? c = some u) : t.isEmptyNode = false := by
  cases t with
  | node term ch =>
    cases ch with
    | nil => simp [Children.get?] at h
    | cons k v rest => cases term <;> rfl

theorem innerMeasure_eq_size (root t : Trie) (h : t.isEmptyNode = false) :
    innerMeasure root t = t.size := by
  simp [innerMeasure, h]

theorem orRoot_size_le (root t : Trie) : (orRoot root t).size ≤ innerMeasure root t := by
  cases t with
  | node term ch =>
    cases term with
    | none =>
      cases ch with
      | nil =>
        simp [orRoot, innerMeasure, Trie.isEmptyNode]
      | cons k v rest =>
        simp [orRoot, innerMeasure, Trie.isEmptyNode]
    | some v =>
      simp [orRoot, innerMeasure, Trie.isEmptyNode]

theorem innerMeasure_le (root t : Trie) (B : Nat) (hroot : root.size + 1 ≤ B)
    (hsize : t.size ≤ B) : innerMeasure root t ≤ B := by
  rw [innerMeasure]
  split
  · omega
  · exact hsize

/-- Fuel sufficiency for the inner lookahead loop: at a fixed scan position
every iteration strictly shrinks `innerMeasure` (a literal edge or a fuzzy
yield descends in the trie, the empty node being swapped for the root), and
the position advances at most `sentence.length` times; so the stated budget
is never exhausted. -/
theorem innerLoopF_isSome (kp : KeywordProcessor) (sentence : List Char) (B : Nat)
    (hroot : kp.keyword_trie_dict.size + 1 ≤ B) :
    ∀ (fuel : Nat) (cdc : Trie) (idy currCost : Nat) (longest : Option String)
      (seqEnd : Nat) (isLonger : Bool),
      1 ≤ idy →
      innerMeasure kp.keyword_trie_dict cdc ≤ B →
      (sentence.length - idy) * (B + 1) + innerMeasure kp.keyword_trie_dict cdc ≤ fuel →
      innerLoopF kp sentence fuel cdc idy currCost longest seqEnd isLonger ≠ none
  | 0, cdc, idy, currCost, longest, seqEnd, isLonger => by
    intro h1 hMB hfuel
    have := innerMeasure_pos kp.keyword_trie_dict cdc
    omega
  | fuel + 1, cdc, idy, currCost, longest, seqEnd, isLonger => by
    intro h1 hMB hfuel
    simp only [innerLoopF]
    by_cases hlt : idy < sentence.length
    · rw [if_pos hlt]
      have hd : sentence.length - idy = (sentence.length - (idy + 1)) + 1 := by omega
      rw [hd, Nat.succ_mul] at hfuel
      cases hget : cdc.children.get? (sentence.getD idy (Char.ofNat 0)) with
      | some child =>
        have hne := isEmptyNode_false_of_child cdc _ child hget
        have hMc : innerMeasure kp.keyword_trie_dict cdc = cdc.size :=
          innerMeasure_eq_size _ _ hne
        have hchild : child.size < cdc.size := get?_size_lt cdc _ child hget
        have hMchild : innerMeasure kp.keyword_trie_dict child ≤ B :=
          innerMeasure_le _ _ B hroot (by omega)
        refine innerLoopF_isSome kp sentence B hroot fuel child (idy + 1)
          currCost _ _ _ (by omega) hMchild ?_
        have hMch1 := innerMeasure_pos kp.keyword_trie_dict child
        omega
      | none =>
        by_cases hcc : 0 < currCost
        · rw [if_pos hcc]
          cases hlev : levenshteinFirst kp.keyword_trie_dict
              (kp.get_next_word (sentence.drop idy)) currCost cdc with
          | none => simp
          | some r =>
            obtain ⟨node, cost, depth⟩ := r
            have hsz := levenshteinFirst_size kp.keyword_trie_dict _ currCost cdc
              node cost depth hlev
            have hor := orRoot_size_le kp.keyword_trie_dict cdc
            have hnode : node.size < innerMeasure kp.keyword_trie_dict cdc := by omega
            cases node with
            | node nterm nch =>
              cases nterm with
              | none =>
                cases nch with
                | nil => simp
                | cons k v rest =>
                  have hMnode : innerMeasure kp.keyword_trie_dict
                      (Trie.node none (Children.cons k v rest))
                        = (Trie.node none (Children.cons k v rest)).size :=
                    innerMeasure_eq_size _ _ rfl
                  refine innerLoopF_isSome kp sentence B hroot fuel _ _
                    (currCost - cost) _ _ _ ?_ (by omega) ?_
                  · have := get_next_word_drop_le kp sentence idy
                    omega
                  · have hmono := Nat.mul_le_mul_right (B + 1)
                      (show sentence.length -
                          (idy + (kp.get_next_word (sentence.drop idy)).length - 1 + 1)
                            ≤ sentence.length - (idy + 1) + 1 by omega)
                    rw [Nat.succ_mul] at hmono
                    omega
              | some nv =>
                have hMnode : innerMeasure kp.keyword_trie_dict (Trie.node (some nv) nch)
                    = (Trie.node (some nv) nch).size := by
                  refine innerMeasure_eq_size _ _ ?_
                  cases nch <;> rfl
                refine innerLoopF_isSome kp sentence B hroot fuel _ _
                  (currCost - cost) _ _ _ ?_ (by omega) ?_
                · have := get_next_word_drop_le kp sentence idy
                  omega
                · have hmono := Nat.mul_le_mul_right (B + 1)
                    (show sentence.length -
                        (idy + (kp.get_next_word (sentence.drop idy)).length - 1 + 1)
                          ≤ sentence.length - (idy + 1) + 1 by omega)
                  rw [Nat.succ_mul] at hmono
                  omega
        · rw [if_neg hcc]
          simp
    · rw [if_neg hlt]
      split <;> simp

/-- Range invariant of the inner lookahead loop: whenever the loop reports a
longer sequence, its end position lies between the position the lookahead
started at and the end of the sentence. -/
theorem innerLoopF_bounds (kp : KeywordProcessor) (sentence : List Char) (i0 : Nat) :
    ∀ (fuel : Nat) (cdc : Trie) (idy currCost : Nat) (longest : Option String)
      (seqEnd : Nat) (isLonger : Bool) (r : InnerRes),
      1 ≤ idy → i0 ≤ idy → idy ≤ sentence.length →
      (isLonger = true → i0 ≤ seqEnd ∧ seqEnd ≤ sentence.length) →
      innerLoopF kp sentence fuel cdc idy currCost longest seqEnd isLonger = some r →
      (r.isLonger = true → i0 ≤ r.seqEnd ∧ r.seqEnd ≤ sentence.length)
  | 0, cdc, idy, currCost, longest, seqEnd, isLonger, r => by
    intro _ _ _ _ h
    simp [innerLoopF] at h
  | fuel + 1, cdc, idy, currCost, longest, seqEnd, isLonger, r => by
    intro h1 hi0 hlen hinv h
    simp only [innerLoopF] at h
    by_cases hlt : idy < sentence.length
    · rw [if_pos hlt] at h
      have hinv1 : (if ¬kp.isWordChar (sentence.getD idy (Char.ofNat 0)) = true ∧
            cdc.terminal.isSome = true then true else isLonger) = true →
          i0 ≤ (if ¬kp.isWordChar (sentence.getD idy (Char.ofNat 0)) = true ∧
            cdc.terminal.isSome = true then idy else seqEnd) ∧
          (if ¬kp.isWordChar (sentence.getD idy (Char.ofNat 0)) = true ∧
            cdc.terminal.isSome = true then idy else seqEnd) ≤ sentence.length := by
        split
        · intro _
          omega
        · exact hinv
      cases hget : cdc.children.get? (sentence.getD idy (Char.ofNat 0)) with
      | some child =>
        rw [hget] at h
        exact innerLoopF_bounds kp sentence i0 fuel child (idy + 1) currCost _ _ _ r
          (by omega) (by omega) (by omega) hinv1 h
      | none =>
        rw [hget] at h
        by_cases hcc : 0 < currCost
        · rw [if_pos hcc] at h
          cases hlev : levenshteinFirst kp.keyword_trie_dict
              (kp.get_next_word (sentence.drop idy)) currCost cdc with
          | none =>
            rw [hlev] at h
            simp only [Option.some.injEq] at h
            subst h
            exact hinv1
          | some rr =>
            obtain ⟨node, cost, depth⟩ := rr
            rw [hlev] at h
            have hnw := get_next_word_drop_le kp sentence idy
            cases node with
            | node nterm nch =>
              cases nterm with
              | none =>
                cases nch with
                | nil =>
                  simp only [Option.some.injEq] at h
                  subst h
                  exact hinv1
                | cons k v rest =>
                  exact innerLoopF_bounds kp sentence i0 fuel _ _ (currCost - cost)
                    _ _ _ r (by omega) (by omega) (by omega) hinv1 h
              | some nv =>
                exact innerLoopF_bounds kp sentence i0 fuel _ _ (currCost - cost)
                  _ _ _ r (by omega) (by omega) (by omega) hinv1 h
        · rw [if_neg hcc] at h
          simp only [Option.some.injEq] at h
          subst h
          exact hinv1
    · rw [if_neg hlt] at h
      split at h <;>
        (simp only [Option.some.injEq] at h
         subst h)
      · intro _
        dsimp only
        omega
      · exact hinv

/-! ## Lemmas: the outer scan loop -/

theorem innerFuel_isSome (kp : KeywordProcessor) (sentence : List Char) (child : Trie)
    (idy currCost : Nat) (longest : Option String) (seqEnd : Nat) (hidy : 1 ≤ idy) :
    innerLoopF kp sentence (innerFuelFor kp sentence child) child idy currCost
      longest seqEnd false ≠ none := by
  have hM : innerMeasure kp.keyword_trie_dict child
      ≤ child.size + kp.keyword_trie_dict.size + 2 :=
    innerMeasure_le _ _ _ (by omega) (by omega)
  refine innerLoopF_isSome kp sentence (child.size + kp.keyword_trie_dict.size + 2)
    (by omega) _ child idy currCost longest seqEnd false hidy hM ?_
  rw [innerFuelFor]
  have hmono := Nat.mul_le_mul_right
    (child.size + kp.keyword_trie_dict.size + 2 + 1)
    (show sentence.length - idy ≤ sentence.length + 2 by omega)
  omega

theorem get_next_word_pos (kp : KeywordProcessor) (sentence : List Char) (i : Nat)
    (hlt : i < sentence.length)
    (hw : kp.isWordChar (sentence.getD i (Char.ofNat 0)) = true) :
    1 ≤ (kp.get_next_word (sentence.drop i)).length := by
  rw [KeywordProcessor.get_next_word, List.drop_eq_getElem_cons hlt,
    List.takeWhile_cons]
  rw [List.getD_eq_getElem sentence (Char.ofNat 0) hlt] at hw
  rw [hw]
  simp

/-- The branch part of an outer iteration is total and only moves the scan
position forward, without touching the span invariant of the accumulator. -/
theorem outerBranch_spec (kp : KeywordProcessor) (sentence : List Char) (mc : Nat)
    (s : ScanState) (hlt : s.idx < sentence.length)
    (hseq : s.sequenceStartPos ≤ s.idx)
    (hacc : ∀ v a b, (v, a, b) ∈ s.acc →
      a < sentence.length ∧ b ≤ sentence.length) :
    ∃ cd1 reset seqEnd1 idx1 cc1 acc1,
      outerBranch kp sentence mc s = some (cd1, reset, seqEnd1, idx1, cc1, acc1) ∧
      s.idx ≤ idx1 ∧
      (∀ v a b, (v, a, b) ∈ acc1 →
        a < sentence.length ∧ b ≤ sentence.length) := by
  simp only [outerBranch]
  by_cases hwc : kp.isWordChar (sentence.getD s.idx (Char.ofNat 0)) = true
  · rw [if_neg (not_not_intro hwc)]
    cases hget : s.currentDict.children.get? (sentence.getD s.idx (Char.ofNat 0)) with
    | some child =>
      exact ⟨child, false, s.sequenceEndPos, s.idx, s.currCost, s.acc, rfl,
        le_rfl, hacc⟩
    | none =>
      by_cases hcc : 0 < s.currCost
      · rw [if_pos hcc]
        have hnw := get_next_word_pos kp sentence s.idx hlt hwc
        cases hlev : levenshteinFirst kp.keyword_trie_dict
            (kp.get_next_word (sentence.drop s.idx)) s.currCost s.currentDict with
        | some r =>
          obtain ⟨node, cost, depth⟩ := r
          exact ⟨node, false, s.sequenceEndPos,
            s.idx + (kp.get_next_word (sentence.drop s.idx)).length - 1,
            s.currCost - cost, s.acc, rfl, by omega, hacc⟩
        | none =>
          exact ⟨kp.keyword_trie_dict, false, s.sequenceEndPos,
            s.idx + (kp.get_next_word (sentence.drop s.idx)).length - 1,
            s.currCost, s.acc, rfl, by omega, hacc⟩
      · rw [if_neg hcc]
        refine ⟨kp.keyword_trie_dict, true, s.sequenceEndPos,
          skipWordEnd kp sentence (s.idx + 1), s.currCost, s.acc, rfl, ?_, hacc⟩
        rw [skipWordEnd]
        omega
  · rw [if_pos hwc]
    by_cases hpresent : (s.currentDict.terminal.isSome
        || (s.currentDict.children.get? (sentence.getD s.idx (Char.ofNat 0))).isSome)
          = true
    · rw [if_pos hpresent]
      have hemit : ∀ r : InnerRes,
          (r.isLonger = true → s.idx + 1 ≤ r.seqEnd ∧ r.seqEnd ≤ sentence.length) →
          ∃ cd1 reset seqEnd1 idx1 cc1 acc1,
            (if optTruthy r.longest = true then
              some (kp.keyword_trie_dict, true, r.seqEnd,
                if r.isLonger = true then r.seqEnd else s.idx, mc,
                s.acc ++ [(r.longest.getD "", s.sequenceStartPos,
                  if r.isLonger = true then r.seqEnd else s.idx)])
            else
              (some (kp.keyword_trie_dict, true, r.seqEnd,
                if r.isLonger = true then r.seqEnd else s.idx, r.currCost, s.acc) :
                Option (Trie × Bool × Nat × Nat × Nat × List (String × Nat × Nat))))
              = some (cd1, reset, seqEnd1, idx1, cc1, acc1) ∧
            s.idx ≤ idx1 ∧
            (∀ v a b, (v, a, b) ∈ acc1 →
              a < sentence.length ∧ b ≤ sentence.length) := by
        intro r hr
        have hidx1 : s.idx ≤ (if r.isLonger = true then r.seqEnd else s.idx) := by
          split
          · rename_i hil
            have := hr hil
            omega
          · exact le_rfl
        have hidx1le : (if r.isLonger = true then r.seqEnd else s.idx)
            ≤ sentence.length := by
          split
          · rename_i hil
            exact (hr hil).2
          · omega
        by_cases htr : optTruthy r.longest = true
        · rw [if_pos htr]
          refine ⟨_, _, _, _, _, _, rfl, hidx1, ?_⟩
          intro v a b hmem
          rw [List.mem_append] at hmem
          rcases hmem with hmem | hmem
          · exact hacc v a b hmem
          · simp only [List.mem_singleton, Prod.mk.injEq] at hmem
            obtain ⟨_, h2, h3⟩ := hmem
            subst h2
            subst h3
            omega
        · rw [if_neg htr]
          exact ⟨_, _, _, _, _, _, rfl, hidx1, hacc⟩
      cases hget : s.currentDict.children.get? (sentence.getD s.idx (Char.ofNat 0)) with
      | some child =>
        dsimp only
        cases hrun : innerLoopF kp sentence (innerFuelFor kp sentence child) child
            (s.idx + 1) s.currCost s.currentDict.terminal
            (if s.currentDict.terminal.isSome = true then s.idx else s.sequenceEndPos)
            false with
        | none =>
          exact absurd hrun
            (innerFuel_isSome kp sentence child (s.idx + 1) s.currCost _ _ (by omega))
        | some r =>
          dsimp only
          exact hemit r (innerLoopF_bounds kp sentence (s.idx + 1) _ child (s.idx + 1)
            s.currCost _ _ false r (by omega) le_rfl (by omega)
            (by intro hfalse; simp at hfalse) hrun)
      | none =>
        dsimp only
        exact hemit ⟨s.currentDict.terminal,
          if s.currentDict.terminal.isSome = true then s.idx else s.sequenceEndPos,
          false, s.currCost⟩ (by intro hfalse; simp at hfalse)
    · rw [if_neg hpresent]
      exact ⟨kp.keyword_trie_dict, true, s.sequenceEndPos, s.idx, s.currCost,
        s.acc, rfl, le_rfl, hacc⟩

/-- One outer iteration is total (the inner fuel suffices), advances the
scan position, and preserves the span invariant: every accumulated span
starts strictly inside and ends within the scanned sentence. -/
theorem outerStep_spec (kp : KeywordProcessor) (sentence : List Char) (mc : Nat)
    (s : ScanState) (hlt : s.idx < sentence.length)
    (hseq : s.sequenceStartPos ≤ s.idx)
    (hacc : ∀ v a b, (v, a, b) ∈ s.acc →
      a < sentence.length ∧ b ≤ sentence.length) :
    ∃ s1, outerStep kp sentence mc s = some s1 ∧
      s.idx + 1 ≤ s1.idx ∧ s1.sequenceStartPos ≤ s1.idx ∧
      (∀ v a b, (v, a, b) ∈ s1.acc →
        a < sentence.length ∧ b ≤ sentence.length) := by
  obtain ⟨cd1, reset, seqEnd1, idx1, cc1, acc1, hb, hidx, hacc1⟩ :=
    outerBranch_spec kp sentence mc s hlt hseq hacc
  refine ⟨outerFinish sentence s (cd1, reset, seqEnd1, idx1, cc1, acc1), ?_, ?_, ?_, ?_⟩
  · rw [outerStep, hb]
  · simp only [outerFinish]
    omega
  · simp only [outerFinish]
    split <;> omega
  · simp only [outerFinish]
    intro v a b hmem
    split at hmem
    · split at hmem
      · rw [List.mem_append] at hmem
        rcases hmem with hmem | hmem
        · exact hacc1 v a b hmem
        · simp only [List.mem_singleton, Prod.mk.injEq] at hmem
          obtain ⟨_, h2, h3⟩ := hmem
          subst h2
          subst h3
          omega
      · exact hacc1 v a b hmem
    · exact hacc1 v a b hmem

/-- The outer loop completes within one fuel unit per remaining character
and returns an accumulator whose spans all lie within the sentence. -/
theorem outerLoopF_spec (kp : KeywordProcessor) (sentence : List Char) (mc : Nat) :
    ∀ (fuel : Nat) (s : ScanState),
      s.sequenceStartPos ≤ s.idx →
      (∀ v a b, (v, a, b) ∈ s.acc → a < sentence.length ∧ b ≤ sentence.length) →
      sentence.length ≤ s.idx + fuel →
      ∃ res, outerLoopF kp sentence mc fuel s = some res ∧
        ∀ v a b, (v, a, b) ∈ res → a < sentence.length ∧ b ≤ sentence.length
  | 0, s => by
    intro hseq hacc hfuel
    rw [outerLoopF, if_neg (by omega)]
    exact ⟨s.acc, rfl, hacc⟩
  | fuel + 1, s => by
    intro hseq hacc hfuel
    rw [outerLoopF]
    by_cases hlt : s.idx < sentence.length
    · rw [if_pos hlt]
      obtain ⟨s1, hstep, hidx, hseq1, hacc1⟩ :=
        outerStep_spec kp sentence mc s hlt hseq hacc
      rw [hstep]
      exact outerLoopF_spec kp sentence mc fuel s1 hseq1 hacc1 (by omega)
    · rw [if_neg hlt]
      exact ⟨s.acc, rfl, hacc⟩

/-! ## Claim theorem: termination -/

theorem extractRaw_total (kp : KeywordProcessor) (sentence : List Char)
    (maxCost : Nat) :
    ∃ res, kp.extractRaw sentence maxCost = some res := by
  simp only [KeywordProcessor.extractRaw]
  by_cases hs : sentence = []
  · rw [if_pos hs]
    exact ⟨[], rfl⟩
  · rw [if_neg hs]
    obtain ⟨res, hres, _⟩ := outerLoopF_spec kp
      (if kp.case_sensitive then sentence else pyLower sentence) maxCost
      (if kp.case_sensitive then sentence else pyLower sentence).length
      ⟨kp.keyword_trie_dict, 0, 0, 0, maxCost, []⟩
      (by exact le_rfl)
      (by intro v a b hmem; simp at hmem)
      (by omega)
    exact ⟨res, hres⟩

/-- C2: for every matcher state, input sentence and `max_cost`,
`extract_keywords` terminates, and the scan is a single input-length-bounded
pass: the embedded outer loop is given exactly one fuel unit per character
of the scanned sentence and provably never exhausts it — every iteration
advances the scan position `idx`, including the fuzzy-lookahead branches,
where the position moves by the length of the consumed word; the inner
lookahead's own bounded work per position is discharged by
`innerLoopF_isSome`. -/
theorem claim_C2_termination (kp : KeywordProcessor) (sentence : List Char)
    (maxCost : Nat) :
    ∃ res, kp.extractRaw sentence maxCost = some res :=
  extractRaw_total kp sentence maxCost

/-! ## Lemmas: the index mapping -/

theorem pyLower_cons (c : Char) (s : List Char) :
    pyLower (c :: s) = pyLowerChar c ++ pyLower s := by
  simp [pyLower]

theorem buildOffsets_length : ∀ (s : List Char) (i : Nat),
    (buildOffsets s i).length = (pyLower s).length
  | [], _ => rfl
  | c :: rest, i => by
    by_cases hc : c = latinCapitalIWithDot
    · simp [buildOffsets, pyLower_cons, pyLowerChar, hc,
        buildOffsets_length rest (i + 1)]
    · simp [buildOffsets, pyLower_cons, pyLowerChar, hc,
        buildOffsets_length rest (i + 1)]

theorem getIndexMapping_some_length (sentence : List Char) (cs : Bool)
    (m : List Nat) (h : getIndexMapping sentence cs = some m) :
    m.length = (pyLower sentence).length := by
  rw [getIndexMapping] at h
  split at h
  · exact absurd h (by simp)
  · simp only [Option.some.injEq] at h
    subst h
    exact buildOffsets_length sentence 0

theorem getIndexMapping_some_cs (sentence : List Char) (cs : Bool)
    (m : List Nat) (h : getIndexMapping sentence cs = some m) : cs = false := by
  rw [getIndexMapping] at h
  split at h
  · exact absurd h (by simp)
  · rename_i hcond
    simp only [Bool.or_eq_true, Bool.not_eq_true] at hcond
    cases cs with
    | false => rfl
    | true => simp at hcond

/-! ## Claim theorem: totality of extraction -/

/-- C9: extraction is total.  The embedding returns a value on every input
(`extractRaw` is `some`, so the fuel-modelled loops cannot fail), the empty
input yields the empty list, and every index used by the Python code to
read the case-folding index mapping is in bounds: every emitted raw span
`(a, b)` has `a < n` and `b ≤ n` for `n` the scanned (folded) length, and
the mapping — when one is built — has exactly length `n`, so the reads
`index_mapping[a]` and `index_mapping[b - 1]` cannot raise. -/
theorem claim_C9_extraction_total (kp : KeywordProcessor) (sentence : List Char)
    (maxCost : Nat) :
    kp.extract_keywords [] maxCost = [] ∧
    (kp.extractRaw sentence maxCost).isSome ∧
    (∀ v a b, (v, a, b) ∈ (kp.extractRaw sentence maxCost).getD [] →
      a < (if kp.case_sensitive then sentence else pyLower sentence).length ∧
      b ≤ (if kp.case_sensitive then sentence else pyLower sentence).length ∧
      (∀ m, getIndexMapping sentence kp.case_sensitive = some m →
        a < m.length ∧ b - 1 < m.length)) := by
  refine ⟨rfl, ?_, ?_⟩
  · obtain ⟨res, hres⟩ := extractRaw_total kp sentence maxCost
    rw [hres]
    rfl
  · intro v a b hmem
    have hbounds : a < (if kp.case_sensitive then sentence
        else pyLower sentence).length ∧
        b ≤ (if kp.case_sensitive then sentence else pyLower sentence).length := by
      rw [KeywordProcessor.extractRaw] at hmem
      by_cases hs : sentence = []
      · rw [if_pos hs] at hmem
        simp at hmem
      · rw [if_neg hs] at hmem
        obtain ⟨res, hres, hresacc⟩ := outerLoopF_spec kp
          (if kp.case_sensitive then sentence else pyLower sentence) maxCost
          (if kp.case_sensitive then sentence else pyLower sentence).length
          ⟨kp.keyword_trie_dict, 0, 0, 0, maxCost, []⟩
          (by exact le_rfl)
          (by intro v a b hmem; simp at hmem)
          (by omega)
        rw [hres] at hmem
        exact hresacc v a b hmem
    refine ⟨hbounds.1, hbounds.2, ?_⟩
    intro m hm
    have hlen := getIndexMapping_some_length sentence kp.case_sensitive m hm
    have hcs := getIndexMapping_some_cs sentence kp.case_sensitive m hm
    rw [hcs] at hbounds
    simp only [Bool.false_eq_true, if_false] at hbounds
    omega

/-- C9 witness: the totality theorem applied at a concrete matcher and
input, with the span-membership hypothesis discharged on the span the
extraction actually emits. -/
theorem claim_C9_extraction_total_witness :
    0 < (if (mkKP [("ab".toList, "AB")]).case_sensitive then "ab.".toList
        else pyLower "ab.".toList).length ∧
    2 ≤ (if (mkKP [("ab".toList, "AB")]).case_sensitive then "ab.".toList
        else pyLower "ab.".toList).length :=
  have h := (claim_C9_extraction_total (mkKP [("ab".toList, "AB")]) "ab.".toList
    0).2.2 "AB" 0 2 (by decide)
  ⟨h.1, h.2.1⟩

/-! ## Lemmas: bracketing of the index mapping -/

/-- The entry of the offset list at folded position `j` names the original
character whose folded expansion covers position `j`: the folded length of
the original prefix up to (resp. past) that character brackets `j`. -/
theorem buildOffsets_getD : ∀ (s : List Char) (base j : Nat),
    j < (pyLower s).length →
    ∃ k, (buildOffsets s base).getD j 0 = base + k ∧
      (pyLower (s.take k)).length ≤ j ∧ j < (pyLower (s.take (k + 1))).length
  | [], base, j => by
    intro h
    simp [pyLower] at h
  | c :: rest, base, j => by
    intro h
    rw [pyLower_cons, List.length_append] at h
    have hpre : (if c = latinCapitalIWithDot then [base, base] else [base]).length
        = (pyLowerChar c).length := by
      by_cases hc : c = latinCapitalIWithDot <;> simp [pyLowerChar, hc]
    by_cases hj : j < (pyLowerChar c).length
    · refine ⟨0, ?_, ?_, ?_⟩
      · rw [buildOffsets, List.getD_append _ _ 0 j (by omega)]
        by_cases hc : c = latinCapitalIWithDot
        · subst hc
          rw [if_pos rfl]
          have hj2 : j < 2 := by
            simpa [pyLowerChar] using hj
          have : j = 0 ∨ j = 1 := by omega
          rcases this with rfl | rfl <;> simp
        · rw [if_neg hc]
          have hj1 : j < 1 := by
            simpa [pyLowerChar, hc] using hj
          have : j = 0 := by omega
          subst this
          simp
      · simp [pyLower]
      · rw [List.take_succ_cons, List.take_zero, pyLower_cons]
        simpa using hj
    · push_neg at hj
      obtain ⟨k, hk1, hk2, hk3⟩ := buildOffsets_getD rest (base + 1)
        (j - (pyLowerChar c).length) (by omega)
      refine ⟨k + 1, ?_, ?_, ?_⟩
      · rw [buildOffsets, List.getD_append_right _ _ 0 j (by omega), hpre]
        rw [show j - (pyLowerChar c).length
          = j - (pyLowerChar c).length from rfl] at hk1
        rw [hk1]
        omega
      · rw [List.take_succ_cons, pyLower_cons, List.length_append]
        omega
      · rw [List.take_succ_cons, pyLower_cons, List.length_append]
        omega

/-! ## Claim theorem: the index mapping -/

/-- C7: the index mapping is built exactly when the matcher is
case-insensitive and the input contains `İ` (otherwise spans pass through
unchanged), it has the same length as the lower-cased input, and each of
its entries names the original character whose folded expansion covers that
folded position — so a span `(a, b)`, translated to
`(mapping[a], mapping[b-1] + 1)`, delimits in the original string exactly
the characters whose folding produced folded positions `a..b-1`. -/
theorem claim_C7_index_mapping (sentence : List Char) (cs : Bool) :
    (getIndexMapping sentence cs = none ↔
      (cs = true ∨ latinCapitalIWithDot ∉ sentence)) ∧
    (∀ m, getIndexMapping sentence cs = some m →
      m.length = (pyLower sentence).length ∧
      ∀ j, j < (pyLower sentence).length →
        (pyLower (sentence.take (m.getD j 0))).length ≤ j ∧
        j < (pyLower (sentence.take (m.getD j 0 + 1))).length) ∧
    (getIndexMapping sentence cs = none →
      ∀ a b, getSpanIndices a b (getIndexMapping sentence cs) = (a, b)) ∧
    (∀ m a b, getSpanIndices a b (some m) = (m.getD a 0, m.getD (b - 1) 0 + 1)) := by
  refine ⟨?_, ?_, ?_, fun m a b => rfl⟩
  · rw [getIndexMapping]
    split
    · rename_i hcond
      simp only [Bool.or_eq_true, Bool.not_eq_true'] at hcond
      simp only [true_iff]
      rcases hcond with hcs | hcont
      · exact Or.inl hcs
      · refine Or.inr fun hmem => ?_
        have hc2 : sentence.contains latinCapitalIWithDot = true :=
          List.elem_iff.mpr hmem
        rw [hcont] at hc2
        simp at hc2
    · rename_i hcond
      constructor
      · intro h
        simp at h
      · intro h
        exfalso
        apply hcond
        simp only [Bool.or_eq_true, Bool.not_eq_true']
        rcases h with hcs | hcont
        · exact Or.inl hcs
        · refine Or.inr ?_
          cases hc : sentence.contains latinCapitalIWithDot
          · rfl
          · exact absurd (List.elem_iff.mp hc) hcont
  · intro m hm
    refine ⟨getIndexMapping_some_length sentence cs m hm, ?_⟩
    intro j hj
    rw [getIndexMapping] at hm
    split at hm
    · exact absurd hm (by simp)
    · simp only [Option.some.injEq] at hm
      subst hm
      obtain ⟨k, hk1, hk2, hk3⟩ := buildOffsets_getD sentence 0 j hj
      rw [hk1]
      simp only [Nat.zero_add]
      exact ⟨hk2, hk3⟩
  · intro h a b
    rw [h, getSpanIndices]

/-- C7 witness: the mapping theorem applied at a concrete sentence
containing `İ`, at folded position 2 (the combining dot produced by folding
the `İ` at original index 1). -/
theorem claim_C7_index_mapping_witness :
    (pyLower (['a', 'İ', 'b'].take (([0, 1, 1, 2] : List Nat).getD 2 0))).length ≤ 2 ∧
    2 < (pyLower (['a', 'İ', 'b'].take (([0, 1, 1, 2] : List Nat).getD 2 0 + 1))).length :=
  ((claim_C7_index_mapping ['a', 'İ', 'b'] false).2.1 [0, 1, 1, 2] (by decide)).2
    2 (by decide)

/-! ## Lemmas: observational equivalence of tries -/

theorem obs_cons_some (t : Trie) (c : Char) (cs : List Char) (u : Trie)
    (h : t.children.get? c = some u) : t.obs (c :: cs) = u.obs cs := by
  cases t with
  | node term ch =>
    simp only [Trie.obs, children_node]
    simp only [children_node] at h
    rw [h]

theorem obs_cons_none (t : Trie) (c : Char) (cs : List Char)
    (h : t.children.get? c = none) : t.obs (c :: cs) = none := by
  cases t with
  | node term ch =>
    simp only [Trie.obs, children_node]
    simp only [children_node] at h
    rw [h]

theorem pe_terminal (a b : Trie) (h : PathEquiv a b) : a.terminal = b.terminal := by
  have h0 := h []
  cases a with
  | node ta cha =>
    cases b with
    | node tb chb =>
      simpa [Trie.obs] using h0

theorem pe_get?_none (a b : Trie) (h : PathEquiv a b) (c : Char)
    (ha : a.children.get? c = none) : b.children.get? c = none := by
  cases hb : b.children.get? c with
  | none => rfl
  | some u =>
    have h1 := h [c]
    rw [obs_cons_none a c [] ha, obs_cons_some b c [] u hb] at h1
    cases u with
    | node tu chu => simp [Trie.obs] at h1

theorem pe_get?_some (a b : Trie) (h : PathEquiv a b) (c : Char) (a1 : Trie)
    (ha : a.children.get? c = some a1) :
    ∃ b1, b.children.get? c = some b1 ∧ PathEquiv a1 b1 := by
  cases hb : b.children.get? c with
  | none =>
    have h1 := h [c]
    rw [obs_cons_none b c [] hb, obs_cons_some a c [] a1 ha] at h1
    cases a1 with
    | node ta cha => simp [Trie.obs] at h1
  | some b1 =>
    refine ⟨b1, rfl, ?_⟩
    intro p
    have h1 := h (c :: p)
    rw [obs_cons_some a c p a1 ha, obs_cons_some b c p b1 hb] at h1
    exact h1

theorem keysSubset_isSome (c : Char) :
    ∀ (ch other : Children), ch.keysSubset other = true →
      (ch.get? c).isSome = true → (other.get? c).isSome = true
  | .nil, other => by
    intro _ hg
    simp [Children.get?] at hg
  | .cons k t rest, other => by
    intro hsub hg
    simp only [Children.keysSubset, Bool.and_eq_true] at hsub
    by_cases hk : k = c
    · subst hk
      simpa [Children.hasKey] using hsub.1
    · simp only [Children.get?, if_neg hk] at hg
      exact keysSubset_isSome c rest other hsub.2 hg

theorem zipChildren_mem (c : Char) :
    ∀ (ch1 ch2 : Children) (pairs : List (Trie × Trie)) (a1 : Trie),
      zipChildren ch1 ch2 = some pairs → ch1.get? c = some a1 →
      ∃ b1, ch2.get? c = some b1 ∧ (a1, b1) ∈ pairs
  | .nil, ch2, pairs, a1 => by
    intro _ hg
    simp [Children.get?] at hg
  | .cons k t rest, ch2, pairs, a1 => by
    intro hzip hg
    simp only [zipChildren] at hzip
    cases hk2 : ch2.get? k with
    | none => rw [hk2] at hzip; simp at hzip
    | some u =>
      rw [hk2] at hzip
      cases hrest : zipChildren rest ch2 with
      | none => rw [hrest] at hzip; simp at hzip
      | some l =>
        rw [hrest] at hzip
        simp only [Option.some.injEq] at hzip
        subst hzip
        by_cases hk : k = c
        · subst hk
          simp [Children.get?] at hg
          subst hg
          exact ⟨u, hk2, List.mem_cons_self _ _⟩
        · simp only [Children.get?, if_neg hk] at hg
          obtain ⟨b1, hb1, hmem⟩ := zipChildren_mem c rest ch2 l a1 hrest hg
          exact ⟨b1, hb1, List.mem_cons_of_mem _ hmem⟩

/-- Soundness of the worklist equivalence check: if it succeeds, every pair
on the stack is observationally equivalent. -/
theorem equivLoop_sound :
    ∀ (fuel : Nat) (stack : List (Trie × Trie)), equivLoop fuel stack = true →
      ∀ a b, (a, b) ∈ stack → PathEquiv a b
  | 0, stack => by
    intro h
    simp [equivLoop] at h
  | fuel + 1, [] => by
    intro _ a b hmem
    simp at hmem
  | fuel + 1, (Trie.node t1 ch1, Trie.node t2 ch2) :: rest => by
    intro h a b hmem
    simp only [equivLoop] at h
    split at h
    · rename_i hterm
      split at h
      · rename_i hkeys
        cases hzip : zipChildren ch1 ch2 with
        | none => rw [hzip] at h; simp at h
        | some pairs =>
          rw [hzip] at h
          have ih := equivLoop_sound fuel (pairs ++ rest) h
          simp only [List.mem_cons] at hmem
          rcases hmem with hmem | hmem
          · rw [Prod.mk.injEq] at hmem
            obtain ⟨ha, hb⟩ := hmem
            subst ha
            subst hb
            simp only [Children.sameKeys, Bool.and_eq_true] at hkeys
            intro p
            cases p with
            | nil => simp [Trie.obs, hterm]
            | cons c ps =>
              cases hg : ch1.get? c with
              | some a1 =>
                obtain ⟨b1, hb1, hmemp⟩ := zipChildren_mem c ch1 ch2 pairs a1 hzip hg
                have hpe := ih a1 b1 (List.mem_append_left rest hmemp)
                rw [obs_cons_some (Trie.node t1 ch1) c ps a1 (by simpa using hg),
                  obs_cons_some (Trie.node t2 ch2) c ps b1 (by simpa using hb1)]
                exact hpe ps
              | none =>
                have hg2 : ch2.get? c = none := by
                  cases hg2 : ch2.get? c with
                  | none => rfl
                  | some u =>
                    have hcontra := keysSubset_isSome c ch2 ch1 hkeys.2 (by simp [hg2])
                    rw [hg] at hcontra
                    simp at hcontra
                rw [obs_cons_none (Trie.node t1 ch1) c ps (by simpa using hg),
                  obs_cons_none (Trie.node t2 ch2) c ps (by simpa using hg2)]
          · exact ih a b (List.mem_append_right pairs hmem)
      · simp at h
    · simp at h

/-! ## Lemmas: non-fuzzy extraction is insensitive to child order -/

/-- With a zero budget the inner loop cannot spend anything: the returned
`curr_cost` is still zero. -/
theorem innerLoopF_cost0 (kp : KeywordProcessor) (sentence : List Char) :
    ∀ (fuel : Nat) (cdc : Trie) (idy : Nat) (longest : Option String)
      (seqEnd : Nat) (isLonger : Bool) (r : InnerRes),
      innerLoopF kp sentence fuel cdc idy 0 longest seqEnd isLonger = some r →
      r.currCost = 0
  | 0, cdc, idy, longest, seqEnd, isLonger, r => by
    intro h
    simp [innerLoopF] at h
  | fuel + 1, cdc, idy, longest, seqEnd, isLonger, r => by
    intro h
    simp only [innerLoopF] at h
    by_cases hlt : idy < sentence.length
    · rw [if_pos hlt] at h
      cases hget : cdc.children.get? (sentence.getD idy (Char.ofNat 0)) with
      | some child =>
        simp only [hget] at h
        exact innerLoopF_cost0 kp sentence fuel child (idy + 1) _ _ _ r h
      | none =>
        simp only [hget] at h
        rw [if_neg (by omega)] at h
        simp only [Option.some.injEq] at h
        subst h
        rfl
    · rw [if_neg hlt] at h
      split at h <;>
        (simp only [Option.some.injEq] at h
         subst h
         rfl)

/-- With a zero budget the inner loop only reads the current node through
its observations, so observationally equivalent tries drive it to the same
result (regardless of the two fuels, both assumed sufficient). -/
theorem innerLoopF_congr (kp1 kp2 : KeywordProcessor)
    (hnwb : kp1.non_word_boundaries = kp2.non_word_boundaries)
    (sentence : List Char) :
    ∀ (f1 f2 : Nat) (cdc1 cdc2 : Trie) (idy : Nat) (longest : Option String)
      (seqEnd : Nat) (isLonger : Bool) (r1 r2 : InnerRes),
      PathEquiv cdc1 cdc2 →
      innerLoopF kp1 sentence f1 cdc1 idy 0 longest seqEnd isLonger = some r1 →
      innerLoopF kp2 sentence f2 cdc2 idy 0 longest seqEnd isLonger = some r2 →
      r1 = r2
  | 0, f2, cdc1, cdc2, idy, longest, seqEnd, isLonger, r1, r2 => by
    intro _ h1 _
    simp [innerLoopF] at h1
  | f1 + 1, 0, cdc1, cdc2, idy, longest, seqEnd, isLonger, r1, r2 => by
    intro _ _ h2
    simp [innerLoopF] at h2
  | f1 + 1, f2 + 1, cdc1, cdc2, idy, longest, seqEnd, isLonger, r1, r2 => by
    intro pe h1 h2
    have hwc : ∀ c, kp1.isWordChar c = kp2.isWordChar c := by
      intro c
      rw [KeywordProcessor.isWordChar, KeywordProcessor.isWordChar, hnwb]
    have hterm := pe_terminal cdc1 cdc2 pe
    simp only [innerLoopF] at h1 h2
    by_cases hlt : idy < sentence.length
    · rw [if_pos hlt] at h1 h2
      rw [hwc (sentence.getD idy (Char.ofNat 0)), hterm] at h1
      cases hget : cdc1.children.get? (sentence.getD idy (Char.ofNat 0)) with
      | some child1 =>
        obtain ⟨child2, hget2, pechild⟩ :=
          pe_get?_some cdc1 cdc2 pe (sentence.getD idy (Char.ofNat 0)) child1 hget
        simp only [hget] at h1
        simp only [hget2] at h2
        exact innerLoopF_congr kp1 kp2 hnwb sentence f1 f2 child1 child2 (idy + 1)
          _ _ _ r1 r2 pechild h1 h2
      | none =>
        have hget2 := pe_get?_none cdc1 cdc2 pe (sentence.getD idy (Char.ofNat 0)) hget
        simp only [hget] at h1
        simp only [hget2] at h2
        rw [if_neg (by omega)] at h1 h2
        simp only [Option.some.injEq] at h1 h2
        rw [← h1, ← h2]
    · rw [if_neg hlt] at h1 h2
      rw [hterm] at h1
      by_cases hT : cdc2.terminal.isSome = true
      · rw [if_pos hT] at h1 h2
        simp only [Option.some.injEq] at h1 h2
        rw [← h1, ← h2]
      · rw [if_neg hT] at h1 h2
        simp only [Option.some.injEq] at h1 h2
        rw [← h1, ← h2]

/-- With a zero budget one outer iteration maps observationally equivalent
current nodes to observationally equivalent successor nodes and identical
scalar state. -/
theorem outerBranch_congr (kp1 kp2 : KeywordProcessor)
    (hnwb : kp1.non_word_boundaries = kp2.non_word_boundaries)
    (sentence : List Char) (cd1 cd2 : Trie) (st se ix : Nat)
    (acc : List (String × Nat × Nat)) (pe : PathEquiv cd1 cd2)
    (hroot : PathEquiv kp1.keyword_trie_dict kp2.keyword_trie_dict) :
    ∃ cd1a cd2a reset seqEnd1 idx1 acc1,
      outerBranch kp1 sentence 0 ⟨cd1, st, se, ix, 0, acc⟩
        = some (cd1a, reset, seqEnd1, idx1, 0, acc1) ∧
      outerBranch kp2 sentence 0 ⟨cd2, st, se, ix, 0, acc⟩
        = some (cd2a, reset, seqEnd1, idx1, 0, acc1) ∧
      PathEquiv cd1a cd2a := by
  have hwc : ∀ c, kp1.isWordChar c = kp2.isWordChar c := by
    intro c
    rw [KeywordProcessor.isWordChar, KeywordProcessor.isWordChar, hnwb]
  have hterm := pe_terminal cd1 cd2 pe
  simp only [outerBranch]
  rw [hwc (sentence.getD ix (Char.ofNat 0)), hterm]
  by_cases hwcx : kp2.isWordChar (sentence.getD ix (Char.ofNat 0)) = true
  · rw [if_neg (not_not_intro hwcx), if_neg (not_not_intro hwcx)]
    cases hget : cd1.children.get? (sentence.getD ix (Char.ofNat 0)) with
    | some child1 =>
      obtain ⟨child2, hget2, pechild⟩ :=
        pe_get?_some cd1 cd2 pe (sentence.getD ix (Char.ofNat 0)) child1 hget
      rw [hget2]
      exact ⟨child1, child2, false, se, ix, acc, rfl, rfl, pechild⟩
    | none =>
      have hget2 := pe_get?_none cd1 cd2 pe (sentence.getD ix (Char.ofNat 0)) hget
      rw [hget2]
      dsimp only
      rw [if_neg (show ¬ (0 : Nat) < 0 by omega),
        if_neg (show ¬ (0 : Nat) < 0 by omega)]
      have hfun : (fun c => kp1.isWordChar c) = (fun c => kp2.isWordChar c) := by
        funext a
        rw [hwc a]
      have hskip : skipWordEnd kp1 sentence (ix + 1) = skipWordEnd kp2 sentence (ix + 1) := by
        rw [skipWordEnd, skipWordEnd, KeywordProcessor.get_next_word,
          KeywordProcessor.get_next_word, hfun]
      rw [hskip]
      exact ⟨kp1.keyword_trie_dict, kp2.keyword_trie_dict, true, se,
        skipWordEnd kp2 sentence (ix + 1), acc, rfl, rfl, hroot⟩
  · rw [if_pos hwcx, if_pos hwcx]
    rw [show (cd2.terminal.isSome
        || (cd1.children.get? (sentence.getD ix (Char.ofNat 0))).isSome)
      = (cd2.terminal.isSome
        || (cd2.children.get? (sentence.getD ix (Char.ofNat 0))).isSome) from ?_]
    · by_cases hpresent : (cd2.terminal.isSome
          || (cd2.children.get? (sentence.getD ix (Char.ofNat 0))).isSome) = true
      · rw [if_pos hpresent, if_pos hpresent]
        cases hget : cd1.children.get? (sentence.getD ix (Char.ofNat 0)) with
        | some child1 =>
          obtain ⟨child2, hget2, pechild⟩ :=
            pe_get?_some cd1 cd2 pe (sentence.getD ix (Char.ofNat 0)) child1 hget
          rw [hget2]
          dsimp only
          cases hrun1 : innerLoopF kp1 sentence (innerFuelFor kp1 sentence child1)
              child1 (ix + 1) 0 cd2.terminal
              (if cd2.terminal.isSome = true then ix else se) false with
          | none =>
            exact absurd hrun1
              (innerFuel_isSome kp1 sentence child1 (ix + 1) 0 _ _ (by omega))
          | some r1 =>
            cases hrun2 : innerLoopF kp2 sentence (innerFuelFor kp2 sentence child2)
                child2 (ix + 1) 0 cd2.terminal
                (if cd2.terminal.isSome = true then ix else se) false with
            | none =>
              exact absurd hrun2
                (innerFuel_isSome kp2 sentence child2 (ix + 1) 0 _ _ (by omega))
            | some r2 =>
              have hr12 : r1 = r2 := innerLoopF_congr kp1 kp2 hnwb sentence _ _
                child1 child2 (ix + 1) _ _ false r1 r2 pechild hrun1 hrun2
              subst hr12
              have hc0 : r1.currCost = 0 :=
                innerLoopF_cost0 kp1 sentence _ child1 (ix + 1) _ _ false r1 hrun1
              dsimp only
              by_cases htr : optTruthy r1.longest = true
              · rw [if_pos htr, if_pos htr]
                exact ⟨kp1.keyword_trie_dict, kp2.keyword_trie_dict, true,
                  r1.seqEnd, _, _, rfl, rfl, hroot⟩
              · rw [if_neg htr, if_neg htr]
                rw [hc0]
                exact ⟨kp1.keyword_trie_dict, kp2.keyword_trie_dict, true,
                  r1.seqEnd, _, _, rfl, rfl, hroot⟩
        | none =>
          have hget2 := pe_get?_none cd1 cd2 pe (sentence.getD ix (Char.ofNat 0)) hget
          rw [hget2]
          dsimp only
          by_cases htr : optTruthy cd2.terminal = true
          · rw [if_pos htr, if_pos htr]
            exact ⟨kp1.keyword_trie_dict, kp2.keyword_trie_dict, true, _, _, _,
              rfl, rfl, hroot⟩
          · rw [if_neg htr, if_neg htr]
            exact ⟨kp1.keyword_trie_dict, kp2.keyword_trie_dict, true, _, _, _,
              rfl, rfl, hroot⟩
      · rw [if_neg hpresent, if_neg hpresent]
        exact ⟨kp1.keyword_trie_dict, kp2.keyword_trie_dict, true, se, ix, acc,
          rfl, rfl, hroot⟩
    · cases hget : cd1.children.get? (sentence.getD ix (Char.ofNat 0)) with
      | some child1 =>
        obtain ⟨child2, hget2, _⟩ :=
          pe_get?_some cd1 cd2 pe (sentence.getD ix (Char.ofNat 0)) child1 hget
        rw [hget2]
        simp
      | none =>
        have hget2 := pe_get?_none cd1 cd2 pe (sentence.getD ix (Char.ofNat 0)) hget
        rw [hget2]

/-! ## Lemmas: `addPath` observations, congruence and commutation -/

/-- Complete characterisation of the observations of an `addPath` result:
the inserted path now carries the new value, its proper prefixes exist
(keeping their old terminal, or none when freshly created), and every
other path is untouched. -/
theorem obs_addPath (v : String) :
    ∀ (p : List Char) (t : Trie) (q : List Char),
      ((t.addPath p v).1).obs q =
        if q = p then some (some v)
        else if q.isPrefixOf p = true then some ((t.obs q).getD none)
        else t.obs q
  | [], Trie.node term ch, q => by
    cases q with
    | nil => simp [Trie.addPath, Trie.obs]
    | cons d ds =>
      rw [if_neg (by simp : ¬(d :: ds = ([] : List Char)))]
      rw [if_neg (by simp [List.isPrefixOf] :
        ¬((d :: ds).isPrefixOf ([] : List Char) = true))]
      simp [Trie.addPath, Trie.obs]
  | c :: cs, Trie.node term ch, q => by
    cases hget : ch.get? c with
    | some child =>
      cases q with
      | nil =>
        rw [if_neg (by simp : ¬(([] : List Char) = c :: cs))]
        rw [if_pos (by simp [List.isPrefixOf] :
          ([] : List Char).isPrefixOf (c :: cs) = true)]
        simp only [Trie.addPath, hget]
        simp [Trie.obs]
      | cons d ds =>
        by_cases hd : d = c
        · subst hd
          simp only [Trie.addPath, hget]
          rw [Trie.obs]
          simp only [children_node]
          rw [get?_replace_self d ((child.addPath cs v).1) ch (by simp [hget])]
          dsimp only
          rw [obs_addPath v cs child ds]
          rw [Trie.obs]
          simp only [children_node, hget]
          simp [List.isPrefixOf, List.cons.injEq]
        · simp only [Trie.addPath, hget]
          rw [if_neg (by simp [hd] : ¬(d :: ds = c :: cs))]
          rw [if_neg (by simp [List.isPrefixOf, hd] :
            ¬((d :: ds).isPrefixOf (c :: cs) = true))]
          rw [Trie.obs, Trie.obs]
          simp only [children_node, get?_replace_ne c d ((child.addPath cs v).1) hd ch]
    | none =>
      cases q with
      | nil =>
        rw [if_neg (by simp : ¬(([] : List Char) = c :: cs))]
        rw [if_pos (by simp [List.isPrefixOf] :
          ([] : List Char).isPrefixOf (c :: cs) = true)]
        simp only [Trie.addPath, hget]
        simp [Trie.obs]
      | cons d ds =>
        by_cases hd : d = c
        · subst hd
          simp only [Trie.addPath, hget]
          rw [Trie.obs]
          simp only [children_node]
          rw [get?_append_self d ((Trie.emptyNode.addPath cs v).1) ch hget]
          dsimp only
          rw [obs_addPath v cs Trie.emptyNode ds]
          rw [Trie.obs]
          simp only [children_node, hget]
          by_cases h1 : ds = cs
          · simp [h1]
          · rw [if_neg h1, if_neg (by simp [List.cons.injEq, h1] :
              ¬(d :: ds = d :: cs))]
            by_cases h2 : ds.isPrefixOf cs = true
            · rw [if_pos h2, if_pos (by simp [List.isPrefixOf, h2] :
                (d :: ds).isPrefixOf (d :: cs) = true)]
              cases ds with
              | nil => simp [Trie.obs, Trie.emptyNode]
              | cons e es => simp [Trie.obs, Trie.emptyNode, Children.get?]
            · rw [if_neg h2, if_neg (by simp [List.isPrefixOf, h2] :
                ¬((d :: ds).isPrefixOf (d :: cs) = true))]
              cases ds with
              | nil =>
                exfalso
                cases cs with
                | nil => exact h1 rfl
                | cons f fs => exact h2 (by simp [List.isPrefixOf])
              | cons e es => simp [Trie.obs, Trie.emptyNode, Children.get?]
        · simp only [Trie.addPath, hget]
          rw [if_neg (by simp [hd] : ¬(d :: ds = c :: cs))]
          rw [if_neg (by simp [List.isPrefixOf, hd] :
            ¬((d :: ds).isPrefixOf (c :: cs) = true))]
          rw [Trie.obs, Trie.obs]
          simp only [children_node,
            get?_append_ne c d ((Trie.emptyNode.addPath cs v).1) hd ch]

/-- Observational equivalence is transitive. -/
theorem pathEquiv_trans {a b c : Trie} (h1 : PathEquiv a b) (h2 : PathEquiv b c) :
    PathEquiv a c :=
  fun q => (h1 q).trans (h2 q)

/-- `addPath` only reads the trie through its observations: it maps
observationally equivalent tries to observationally equivalent tries. -/
theorem addPath_obs_congr (t1 t2 : Trie) (p : List Char) (v : String)
    (h : PathEquiv t1 t2) : PathEquiv ((t1.addPath p v).1) ((t2.addPath p v).1) := by
  intro q
  rw [obs_addPath, obs_addPath, h q]

/-- Two `addPath` insertions at distinct keys commute up to observational
equivalence (they differ only in the child insertion order at the node
where the two keys diverge). -/
theorem addPath_swap (t : Trie) (p1 p2 : List Char) (v1 v2 : String) (hne : p1 ≠ p2) :
    PathEquiv (((t.addPath p1 v1).1.addPath p2 v2).1)
      (((t.addPath p2 v2).1.addPath p1 v1).1) := by
  intro q
  simp only [obs_addPath]
  by_cases h1 : q = p1
  · subst h1
    simp [hne]
  · by_cases h2 : q = p2
    · subst h2
      simp [Ne.symm hne, h1]
    · by_cases hp1 : q.isPrefixOf p1 = true <;> by_cases hp2 : q.isPrefixOf p2 = true <;>
        simp [h1, h2, hp1, hp2]

/-- One registration step maps observationally equivalent tries to
observationally equivalent tries. -/
theorem addStep_congr (cs : Bool) (t1 t2 : Trie) (p : List Char × String)
    (h : PathEquiv t1 t2) : PathEquiv (addStep cs t1 p) (addStep cs t2 p) := by
  simp only [addStep]
  by_cases hc : p.1 ≠ [] ∧ optTruthy (some p.2) = true
  · simp only [if_pos hc]
    exact addPath_obs_congr t1 t2 _ _ h
  · simp only [if_neg hc]
    exact h

/-- Two registration steps with distinct folded keys commute up to
observational equivalence. -/
theorem addStep_swap (cs : Bool) (t : Trie) (x y : List Char × String)
    (hne : foldEntryKey cs x ≠ foldEntryKey cs y) :
    PathEquiv (addStep cs (addStep cs t x) y) (addStep cs (addStep cs t y) x) := by
  simp only [addStep]
  by_cases hx : x.1 ≠ [] ∧ optTruthy (some x.2) = true <;>
    by_cases hy : y.1 ≠ [] ∧ optTruthy (some y.2) = true
  · simp only [if_pos hx, if_pos hy]
    exact addPath_swap t (foldEntryKey cs x) (foldEntryKey cs y) x.2 y.2 hne
  · simp only [if_pos hx, if_neg hy]
    exact fun q => rfl
  · simp only [if_neg hx, if_pos hy]
    exact fun q => rfl
  · simp only [if_neg hx, if_neg hy]
    exact fun q => rfl

/-- Registering a list of entries maps observationally equivalent starting
tries to observationally equivalent tries. -/
theorem addFold_congr (cs : Bool) :
    ∀ (l : List (List Char × String)) (t1 t2 : Trie), PathEquiv t1 t2 →
      PathEquiv (addFold cs t1 l) (addFold cs t2 l)
  | [], _, _ => fun h => h
  | p :: rest, t1, t2 => fun h =>
    addFold_congr cs rest (addStep cs t1 p) (addStep cs t2 p)
      (addStep_congr cs t1 t2 p h)

/-- Registering entries with pairwise-distinct folded keys in any order
yields observationally equivalent tries. -/
theorem addFold_perm (cs : Bool) :
    ∀ {l l' : List (List Char × String)}, l.Perm l' →
      List.Pairwise (fun a b => foldEntryKey cs a ≠ foldEntryKey cs b) l →
      ∀ t : Trie, PathEquiv (addFold cs t l) (addFold cs t l') := by
  intro l l' hperm
  induction hperm with
  | nil =>
    intro _ t
    exact fun q => rfl
  | cons x h ih =>
    intro hdist t
    simp only [addFold]
    exact ih (List.pairwise_cons.mp hdist).2 (addStep cs t x)
  | swap x y l =>
    intro hdist t
    have hxy : foldEntryKey cs y ≠ foldEntryKey cs x :=
      (List.pairwise_cons.mp hdist).1 x (by simp)
    simp only [addFold]
    exact addFold_congr cs l _ _ (addStep_swap cs t y x hxy)
  | trans h12 h23 ih12 ih23 =>
    intro hdist t
    have hsymm : Symmetric (fun a b : List Char × String =>
        foldEntryKey cs a ≠ foldEntryKey cs b) := fun a b h hh => h hh.symm
    have hdist2 := (h12.pairwise_iff (fun h => hsymm h)).mp hdist
    exact pathEquiv_trans (ih12 hdist t) (ih23 hdist2 t)

/-- A `setItem` call with an explicit clean name keeps the configuration
and performs exactly one `addStep` on the trie. -/
theorem setItem_some_case (kp : KeywordProcessor) (k : List Char) (v : String) :
    (kp.setItem k (some v)).1.case_sensitive = kp.case_sensitive ∧
    (kp.setItem k (some v)).1.non_word_boundaries = kp.non_word_boundaries ∧
    (kp.setItem k (some v)).1.keyword_trie_dict =
      addStep kp.case_sensitive kp.keyword_trie_dict (k, v) := by
  by_cases hc : k ≠ [] ∧ optTruthy (some v) = true
  · simp [KeywordProcessor.setItem, addStep, hc, KeywordProcessor.foldKey, foldEntryKey]
  · simp [KeywordProcessor.setItem, addStep, hc]

/-- Folding `add_keyword` over an entry list keeps the configuration and
applies `addFold` to the trie. -/
theorem kpFold_spec :
    ∀ (l : List (List Char × String)) (kp : KeywordProcessor),
      (l.foldl (fun kp p => (kp.add_keyword p.1 (some p.2)).1) kp).case_sensitive
          = kp.case_sensitive ∧
      (l.foldl (fun kp p => (kp.add_keyword p.1 (some p.2)).1) kp).non_word_boundaries
          = kp.non_word_boundaries ∧
      (l.foldl (fun kp p => (kp.add_keyword p.1 (some p.2)).1) kp).keyword_trie_dict
          = addFold kp.case_sensitive kp.keyword_trie_dict l
  | [], kp => ⟨rfl, rfl, rfl⟩
  | p :: rest, kp => by
    have hstep := setItem_some_case kp p.1 p.2
    have ih := kpFold_spec rest (kp.add_keyword p.1 (some p.2)).1
    simp only [List.foldl_cons, addFold]
    refine ⟨?_, ?_, ?_⟩
    · rw [ih.1]
      exact hstep.1
    · rw [ih.2.1]
      exact hstep.2.1
    · rw [ih.2.2]
      rw [show (kp.add_keyword p.1 (some p.2)).1.case_sensitive = kp.case_sensitive
        from hstep.1]
      rw [show (kp.add_keyword p.1 (some p.2)).1.keyword_trie_dict
        = addStep kp.case_sensitive kp.keyword_trie_dict (p.1, p.2) from hstep.2.2]

/-- The matcher built by `mkKP`: case-insensitive, default boundaries, and
the trie is the fold of the registration steps over the empty trie. -/
theorem mkKP_spec (l : List (List Char × String)) :
    (mkKP l).case_sensitive = false ∧
    (mkKP l).non_word_boundaries = defaultNonWordBoundaries ∧
    (mkKP l).keyword_trie_dict = addFold false Trie.emptyNode l :=
  kpFold_spec l (KeywordProcessor.init false)

/-- With a zero budget the whole scan loop only reads the tries through
their observations: matchers with equal configuration and observationally
equivalent tries produce the same matches. -/
theorem outerLoopF_congr (kp1 kp2 : KeywordProcessor)
    (hnwb : kp1.non_word_boundaries = kp2.non_word_boundaries)
    (hroot : PathEquiv kp1.keyword_trie_dict kp2.keyword_trie_dict)
    (sentence : List Char) :
    ∀ (fuel : Nat) (cd1 cd2 : Trie) (st se ix : Nat)
      (acc : List (String × Nat × Nat)), PathEquiv cd1 cd2 →
      outerLoopF kp1 sentence 0 fuel ⟨cd1, st, se, ix, 0, acc⟩
        = outerLoopF kp2 sentence 0 fuel ⟨cd2, st, se, ix, 0, acc⟩
  | 0, cd1, cd2, st, se, ix, acc => fun _ => rfl
  | fuel + 1, cd1, cd2, st, se, ix, acc => by
    intro pe
    obtain ⟨cd1a, cd2a, reset, seqEnd1, idx1, acc1, hb1, hb2, pea⟩ :=
      outerBranch_congr kp1 kp2 hnwb sentence cd1 cd2 st se ix acc pe hroot
    simp only [outerLoopF]
    by_cases hlt : ix < sentence.length
    · rw [if_pos hlt, if_pos hlt]
      simp only [outerStep, hb1, hb2]
      simp only [outerFinish]
      rw [pe_terminal cd1a cd2a pea]
      exact outerLoopF_congr kp1 kp2 hnwb hroot sentence fuel cd1a cd2a _ _ _ _ pea
    · rw [if_neg hlt, if_neg hlt]

/-- `extract_keywords` at `max_cost = 0` on matchers with equal
configuration and observationally equivalent tries returns the same list,
for every sentence. -/
theorem extract_congr (kp1 kp2 : KeywordProcessor)
    (hcs : kp1.case_sensitive = kp2.case_sensitive)
    (hnwb : kp1.non_word_boundaries = kp2.non_word_boundaries)
    (hroot : PathEquiv kp1.keyword_trie_dict kp2.keyword_trie_dict)
    (sentence : List Char) :
    kp1.extract_keywords sentence 0 = kp2.extract_keywords sentence 0 := by
  simp only [KeywordProcessor.extract_keywords, KeywordProcessor.extractKeywordsSpan,
    KeywordProcessor.extractRaw, hcs]
  by_cases hs : sentence = []
  · subst hs
    simp
  · rw [if_neg hs, if_neg hs]
    rw [outerLoopF_congr kp1 kp2 hnwb hroot
      (if kp2.case_sensitive then sentence else pyLower sentence)
      (if kp2.case_sensitive then sentence else pyLower sentence).length
      kp1.keyword_trie_dict kp2.keyword_trie_dict 0 0 0 [] hroot]

/-- Insertion-order independence of non-fuzzy extraction: matchers built
from any two permutations of an entry list with pairwise-distinct folded
patterns extract the same keywords from every sentence. -/
theorem extract_keywords_perm (l l' : List (List Char × String))
    (hperm : l.Perm l')
    (hdist : List.Pairwise (fun a b => foldEntryKey false a ≠ foldEntryKey false b) l)
    (sentence : List Char) :
    (mkKP l).extract_keywords sentence 0 = (mkKP l').extract_keywords sentence 0 := by
  refine extract_congr (mkKP l) (mkKP l') ?_ ?_ ?_ sentence
  · rw [(mkKP_spec l).1, (mkKP_spec l').1]
  · rw [(mkKP_spec l).2.1, (mkKP_spec l').2.1]
  · rw [(mkKP_spec l).2.2, (mkKP_spec l').2.2]
    exact addFold_perm false hperm hdist Trie.emptyNode


/-! ## Lemmas: longest-match maximality of the scan -/

/-- Walking a concatenated path walks the two parts in sequence. -/
theorem lookupNode_append : ∀ (p : List Char) (t : Trie) (q : List Char),
    t.lookupNode (p ++ q) = match t.lookupNode p with
      | some u => u.lookupNode q
      | none => none
  | [], t, q => rfl
  | c :: cs, t, q => by
    cases hget : t.children.get? c with
    | some u =>
      have h1 : t.lookupNode ((c :: cs) ++ q) = u.lookupNode (cs ++ q) := by
        simp [Trie.lookupNode, hget]
      have h2 : t.lookupNode (c :: cs) = u.lookupNode cs := by
        simp [Trie.lookupNode, hget]
      rw [h1, h2, lookupNode_append cs u q]
    | none =>
      have h1 : t.lookupNode ((c :: cs) ++ q) = none := by
        simp [Trie.lookupNode, hget]
      have h2 : t.lookupNode (c :: cs) = none := by
        simp [Trie.lookupNode, hget]
      rw [h1, h2]

/-- A terminal lookup along a concatenated path, when the first part
reaches a node. -/
theorem lookupTerm_split (t : Trie) (p q : List Char) (u : Trie)
    (h : t.lookupNode p = some u) : t.lookupTerm (p ++ q) = u.lookupTerm q := by
  simp [Trie.lookupTerm, lookupNode_append p t q, h]

/-- A terminal lookup along a concatenated path, when the first part
already leaves the trie. -/
theorem lookupTerm_split_none (t : Trie) (p q : List Char)
    (h : t.lookupNode p = none) : t.lookupTerm (p ++ q) = none := by
  simp [Trie.lookupTerm, lookupNode_append p t q, h]

/-- Dropping up to a valid index exposes that character. -/
theorem getD_drop_cons (l : List Char) (i : Nat) (d : Char) (h : i < l.length) :
    l.drop i = l.getD i d :: l.drop (i + 1) := by
  rw [List.drop_eq_getElem_cons h, List.getD_eq_getElem l d h]

/-- Extending a scanned slice by one character appends that character. -/
theorem slice_extend (l : List Char) (a i : Nat) (d : Char) (ha : a ≤ i)
    (hi : i < l.length) :
    (l.drop a).take (i + 1 - a) = (l.drop a).take (i - a) ++ [l.getD i d] := by
  rw [show i + 1 - a = (i - a) + 1 from by omega, List.take_succ]
  have h2 : (l.drop a)[i - a]? = some l[i] := by
    rw [List.getElem?_drop, show a + (i - a) = i from by omega]
    exact List.getElem?_eq_getElem hi
  rw [h2, List.getD_eq_getElem l d hi]
  rfl

/-- A scanned slice splits at any intermediate position. -/
theorem slice_split (l : List Char) (a i j : Nat) (hai : a ≤ i) (hij : i ≤ j) :
    (l.drop a).take (j - a) = (l.drop a).take (i - a) ++ (l.drop i).take (j - i) := by
  rw [show j - a = (i - a) + (j - i) from by omega, List.take_add, List.drop_drop,
    show a + (i - a) = i from by omega]

/-- Following one more edge from the node reached by a scanned slice. -/
theorem lookupNode_slice_extend (t cd child : Trie) (sentence : List Char)
    (st ix : Nat) (hstle : st ≤ ix) (hidx : ix < sentence.length)
    (hlook : t.lookupNode ((sentence.drop st).take (ix - st)) = some cd)
    (hget : cd.children.get? (sentence.getD ix (Char.ofNat 0)) = some child) :
    t.lookupNode ((sentence.drop st).take (ix + 1 - st)) = some child := by
  rw [slice_extend sentence st ix (Char.ofNat 0) hstle hidx,
    lookupNode_append _ t _, hlook]
  cases cd with
  | node t2 ch =>
    dsimp only
    simp only [children_node] at hget
    rw [Trie.lookupNode, children_node, hget]
    rfl

/-- When the next edge is missing, the extended slice leaves the trie. -/
theorem lookupNode_slice_extend_none (t cd : Trie) (sentence : List Char)
    (st ix : Nat) (hstle : st ≤ ix) (hidx : ix < sentence.length)
    (hlook : t.lookupNode ((sentence.drop st).take (ix - st)) = some cd)
    (hget : cd.children.get? (sentence.getD ix (Char.ofNat 0)) = none) :
    t.lookupNode ((sentence.drop st).take (ix + 1 - st)) = none := by
  rw [slice_extend sentence st ix (Char.ofNat 0) hstle hidx,
    lookupNode_append _ t _, hlook]
  cases cd with
  | node t2 ch =>
    dsimp only
    simp only [children_node] at hget
    rw [Trie.lookupNode, children_node, hget]

/-- A span ending at the end of the sentence is trivially a longest match. -/
theorem longestGood_full (kp : KeywordProcessor) (sentence : List Char) (v : String)
    (a : Nat) : LongestGood kp sentence (v, a, sentence.length) := by
  intro j hj _ _
  exact hj

/-- The scan invariant holds at every reset state. -/
theorem scanInv_reset (kp : KeywordProcessor) (sentence : List Char) (i se : Nat)
    (acc : List (String × Nat × Nat)) :
    ScanInv kp sentence ⟨kp.keyword_trie_dict, i, se, i, 0, acc⟩ := by
  refine ⟨rfl, Nat.le_refl i, ?_⟩
  rw [Nat.sub_self, List.take_zero]
  rfl

/-- Membership after the end-of-sentence trailing check of `outerFinish`:
either an old span, or a trailing span ending at the end of the sentence
(trivially a longest match). -/
theorem finish_acc_mem (kp : KeywordProcessor) (sentence : List Char) (cd1a : Trie)
    (st len0 : Nat) (acc1 : List (String × Nat × Nat)) (m : String × Nat × Nat)
    (hm : m ∈ (if sentence.length ≤ len0 then
        match cd1a.terminal with
        | some v => acc1 ++ [(v, st, sentence.length)]
        | none => acc1
      else acc1)) :
    m ∈ acc1 ∨ LongestGood kp sentence m := by
  by_cases hlen : sentence.length ≤ len0
  · rw [if_pos hlen] at hm
    cases hterm : cd1a.terminal with
    | some v =>
      rw [hterm] at hm
      rcases List.mem_append.mp hm with hm1 | hm2
      · exact Or.inl hm1
      · right
        rw [List.mem_singleton.mp hm2]
        exact longestGood_full kp sentence v st
    | none =>
      rw [hterm] at hm
      exact Or.inl hm
  · rw [if_neg hlen] at hm
    exact Or.inl hm

/-- Once the lookahead has recorded a longer sequence, the flag stays set. -/
theorem innerLoopF_sticky (kp : KeywordProcessor) (sentence : List Char) :
    ∀ (fuel : Nat) (cdc : Trie) (idy : Nat) (longest : Option String)
      (seqEnd : Nat) (r : InnerRes),
      innerLoopF kp sentence fuel cdc idy 0 longest seqEnd true = some r →
      r.isLonger = true
  | 0, cdc, idy, longest, seqEnd, r => by
    intro h
    simp [innerLoopF] at h
  | fuel + 1, cdc, idy, longest, seqEnd, r => by
    intro h
    simp only [innerLoopF] at h
    by_cases hlt : idy < sentence.length
    · rw [if_pos hlt] at h
      cases hget : cdc.children.get? (sentence.getD idy (Char.ofNat 0)) with
      | some child =>
        simp only [hget, ite_self] at h
        exact innerLoopF_sticky kp sentence fuel child (idy + 1) _ _ r h
      | none =>
        simp only [hget] at h
        rw [if_neg (by omega)] at h
        simp only [Option.some.injEq] at h
        subst h
        dsimp only
        split <;> rfl
    · rw [if_neg hlt] at h
      split at h <;>
        (simp only [Option.some.injEq] at h
         subst h
         rfl)

/-- The recorded sequence end never decreases during the lookahead. -/
theorem innerLoopF_seqEnd_mono (kp : KeywordProcessor) (sentence : List Char) :
    ∀ (fuel : Nat) (cdc : Trie) (idy : Nat) (longest : Option String)
      (seqEnd : Nat) (isLonger : Bool) (r : InnerRes),
      innerLoopF kp sentence fuel cdc idy 0 longest seqEnd isLonger = some r →
      seqEnd ≤ idy → seqEnd ≤ r.seqEnd
  | 0, cdc, idy, longest, seqEnd, isLonger, r => by
    intro h _
    simp [innerLoopF] at h
  | fuel + 1, cdc, idy, longest, seqEnd, isLonger, r => by
    intro h hle
    simp only [innerLoopF] at h
    by_cases hlt : idy < sentence.length
    · rw [if_pos hlt] at h
      cases hget : cdc.children.get? (sentence.getD idy (Char.ofNat 0)) with
      | some child =>
        simp only [hget] at h
        by_cases hupd : ¬ kp.isWordChar (sentence.getD idy (Char.ofNat 0)) = true ∧
            cdc.terminal.isSome = true
        · simp only [if_pos hupd] at h
          have := innerLoopF_seqEnd_mono kp sentence fuel child (idy + 1) _ idy _ r h
            (by omega)
          omega
        · simp only [if_neg hupd] at h
          exact innerLoopF_seqEnd_mono kp sentence fuel child (idy + 1) _ seqEnd _ r h
            (by omega)
      | none =>
        simp only [hget] at h
        rw [if_neg (by omega)] at h
        simp only [Option.some.injEq] at h
        subst h
        dsimp only
        split <;> omega
    · rw [if_neg hlt] at h
      by_cases ht : cdc.terminal.isSome = true
      · rw [if_pos ht] at h
        simp only [Option.some.injEq] at h
        subst h
        dsimp only
        omega
      · rw [if_neg ht] at h
        simp only [Option.some.injEq] at h
        subst h
        dsimp only
        omega

/-- If the lookahead reports a longer sequence it was found at or after the
lookahead start. -/
theorem innerLoopF_found (kp : KeywordProcessor) (sentence : List Char) :
    ∀ (fuel : Nat) (cdc : Trie) (idy : Nat) (longest : Option String)
      (seqEnd : Nat) (r : InnerRes),
      innerLoopF kp sentence fuel cdc idy 0 longest seqEnd false = some r →
      r.isLonger = true → idy ≤ r.seqEnd
  | 0, cdc, idy, longest, seqEnd, r => by
    intro h _
    simp [innerLoopF] at h
  | fuel + 1, cdc, idy, longest, seqEnd, r => by
    intro h hL
    simp only [innerLoopF] at h
    by_cases hlt : idy < sentence.length
    · rw [if_pos hlt] at h
      by_cases hupd : ¬ kp.isWordChar (sentence.getD idy (Char.ofNat 0)) = true ∧
          cdc.terminal.isSome = true
      · simp only [if_pos hupd] at h
        cases hget : cdc.children.get? (sentence.getD idy (Char.ofNat 0)) with
        | some child =>
          simp only [hget] at h
          have := innerLoopF_seqEnd_mono kp sentence fuel child (idy + 1) _ idy _ r h
            (by omega)
          omega
        | none =>
          simp only [hget] at h
          rw [if_neg (by omega)] at h
          simp only [Option.some.injEq] at h
          subst h
          dsimp only
          omega
      · simp only [if_neg hupd] at h
        cases hget : cdc.children.get? (sentence.getD idy (Char.ofNat 0)) with
        | some child =>
          simp only [hget] at h
          have := innerLoopF_found kp sentence fuel child (idy + 1) _ seqEnd r h hL
          omega
        | none =>
          simp only [hget] at h
          rw [if_neg (by omega)] at h
          simp only [Option.some.injEq] at h
          subst h
          simp at hL
    · rw [if_neg hlt] at h
      by_cases ht : cdc.terminal.isSome = true
      · rw [if_pos ht] at h
        simp only [Option.some.injEq] at h
        subst h
        dsimp only
        omega
      · rw [if_neg ht] at h
        simp only [Option.some.injEq] at h
        subst h
        simp at hL

/-- Maximality of the lookahead: every registered pattern that continues
from the lookahead start and ends at a word boundary (or at the end of the
sentence) is recorded, so its end never exceeds the reported one, and the
longer-sequence flag is set. -/
theorem innerLoopF_longest_max (kp : KeywordProcessor) (sentence : List Char) :
    ∀ (fuel : Nat) (cdc : Trie) (idy : Nat) (longest : Option String)
      (seqEnd : Nat) (isLonger : Bool) (r : InnerRes),
      innerLoopF kp sentence fuel cdc idy 0 longest seqEnd isLonger = some r →
      ∀ j, idy ≤ j → j ≤ sentence.length →
        (j = sentence.length ∨
          kp.isWordChar (sentence.getD j (Char.ofNat 0)) = false) →
        (cdc.lookupTerm ((sentence.drop idy).take (j - idy))).isSome = true →
        j ≤ r.seqEnd ∧ r.isLonger = true
  | 0, cdc, idy, longest, seqEnd, isLonger, r => by
    intro h
    simp [innerLoopF] at h
  | fuel + 1, cdc, idy, longest, seqEnd, isLonger, r => by
    intro h j hij hjlen hbound hcand
    simp only [innerLoopF] at h
    by_cases hlt : idy < sentence.length
    · rw [if_pos hlt] at h
      by_cases hje : j = idy
      · subst hje
        rw [Nat.sub_self, List.take_zero] at hcand
        have hbnd : kp.isWordChar (sentence.getD j (Char.ofNat 0)) = false := by
          rcases hbound with hb | hb
          · exact absurd hb (by omega)
          · exact hb
        have hterm : cdc.terminal.isSome = true := by
          cases cdc with
          | node t ch => simpa [Trie.lookupTerm, Trie.lookupNode] using hcand
        have hupd : ¬ kp.isWordChar (sentence.getD j (Char.ofNat 0)) = true ∧
            cdc.terminal.isSome = true := ⟨by simp only [hbnd]; decide, hterm⟩
        simp only [if_pos hupd] at h
        cases hget : cdc.children.get? (sentence.getD j (Char.ofNat 0)) with
        | some child =>
          simp only [hget] at h
          refine ⟨?_, innerLoopF_sticky kp sentence fuel child (j + 1) _ _ r h⟩
          have := innerLoopF_seqEnd_mono kp sentence fuel child (j + 1) _ j _ r h
            (by omega)
          omega
        | none =>
          simp only [hget] at h
          rw [if_neg (by omega)] at h
          simp only [Option.some.injEq] at h
          subst h
          exact ⟨Nat.le_refl j, rfl⟩
      · have hij1 : idy + 1 ≤ j := by omega
        rw [getD_drop_cons sentence idy (Char.ofNat 0) hlt,
          show j - idy = (j - (idy + 1)) + 1 from by omega,
          List.take_succ_cons] at hcand
        cases hget : cdc.children.get? (sentence.getD idy (Char.ofNat 0)) with
        | some child =>
          have hc2 : (child.lookupTerm
              ((sentence.drop (idy + 1)).take (j - (idy + 1)))).isSome = true := by
            cases cdc with
            | node t ch =>
              rw [lookupTerm_cons_some t ch _ _ child (by simpa using hget)] at hcand
              exact hcand
          simp only [hget] at h
          exact innerLoopF_longest_max kp sentence fuel child (idy + 1) _ _ _ r h j
            hij1 hjlen hbound hc2
        | none =>
          exfalso
          cases cdc with
          | node t ch =>
            rw [lookupTerm_cons_none t ch _ _ (by simpa using hget)] at hcand
            simp at hcand
    · rw [if_neg hlt] at h
      have hj : j = idy := by omega
      subst hj
      rw [Nat.sub_self, List.take_zero] at hcand
      have hterm : cdc.terminal.isSome = true := by
        cases cdc with
        | node t ch => simpa [Trie.lookupTerm, Trie.lookupNode] using hcand
      rw [if_pos hterm] at h
      simp only [Option.some.injEq] at h
      subst h
      exact ⟨Nat.le_refl j, rfl⟩

/-- Evaluating `outerFinish` on a resetting branch result. -/
theorem outerFinish_true (sentence : List Char) (s : ScanState) (cd1 : Trie)
    (seqEnd1 idx1 cc1 : Nat) (acc1 : List (String × Nat × Nat)) :
    outerFinish sentence s (cd1, true, seqEnd1, idx1, cc1, acc1) =
      ⟨cd1, idx1 + 1, seqEnd1, idx1 + 1, cc1,
        if sentence.length ≤ idx1 + 1 then
          match cd1.terminal with
          | some v => acc1 ++ [(v, s.sequenceStartPos, sentence.length)]
          | none => acc1
        else acc1⟩ := rfl

/-- Evaluating `outerFinish` on a non-resetting branch result. -/
theorem outerFinish_false (sentence : List Char) (s : ScanState) (cd1 : Trie)
    (seqEnd1 idx1 cc1 : Nat) (acc1 : List (String × Nat × Nat)) :
    outerFinish sentence s (cd1, false, seqEnd1, idx1, cc1, acc1) =
      ⟨cd1, s.sequenceStartPos, seqEnd1, idx1 + 1, cc1,
        if sentence.length ≤ idx1 + 1 then
          match cd1.terminal with
          | some v => acc1 ++ [(v, s.sequenceStartPos, sentence.length)]
          | none => acc1
        else acc1⟩ := rfl

/-- A span emitted after a lookahead from an existing edge is a longest
match: its end bound follows from the lookahead maximality. -/
theorem emission_good_some (kp : KeywordProcessor) (sentence : List Char)
    (cd child : Trie) (st ix : Nat) (L0 : Option String) (E0 fuelF : Nat)
    (r : InnerRes) (v : String) (hstle : st ≤ ix) (hidx : ix < sentence.length)
    (hlook : kp.keyword_trie_dict.lookupNode
      ((sentence.drop st).take (ix - st)) = some cd)
    (hget : cd.children.get? (sentence.getD ix (Char.ofNat 0)) = some child)
    (hr : innerLoopF kp sentence fuelF child (ix + 1) 0 L0 E0 false = some r) :
    LongestGood kp sentence (v, st, if r.isLonger = true then r.seqEnd else ix) := by
  intro j hjlen hbound hcand
  dsimp only at hcand ⊢
  by_cases hjix : j ≤ ix
  · have hixe : ix ≤ (if r.isLonger = true then r.seqEnd else ix) := by
      by_cases hL : r.isLonger = true
      · rw [if_pos hL]
        have := innerLoopF_found kp sentence fuelF child (ix + 1) L0 E0 r hr hL
        omega
      · rw [if_neg hL]
    omega
  · have hij1 : ix + 1 ≤ j := by omega
    have hlook1 := lookupNode_slice_extend kp.keyword_trie_dict cd child sentence
      st ix hstle hidx hlook hget
    rw [slice_split sentence st (ix + 1) j (by omega) hij1,
      lookupTerm_split kp.keyword_trie_dict _ _ child hlook1] at hcand
    have hB := innerLoopF_longest_max kp sentence fuelF child (ix + 1) L0 E0 false r
      hr j hij1 hjlen hbound hcand
    rw [if_pos hB.2]
    exact hB.1

/-- A span emitted at a boundary whose character has no trie edge is a
longest match: no registered pattern continues past the boundary. -/
theorem emission_good_none (kp : KeywordProcessor) (sentence : List Char)
    (cd : Trie) (st ix : Nat) (v : String) (hstle : st ≤ ix)
    (hidx : ix < sentence.length)
    (hlook : kp.keyword_trie_dict.lookupNode
      ((sentence.drop st).take (ix - st)) = some cd)
    (hget : cd.children.get? (sentence.getD ix (Char.ofNat 0)) = none) :
    LongestGood kp sentence (v, st, ix) := by
  intro j hjlen hbound hcand
  dsimp only at hcand ⊢
  by_cases hjix : j ≤ ix
  · exact hjix
  · exfalso
    have hij1 : ix + 1 ≤ j := by omega
    have hnone := lookupNode_slice_extend_none kp.keyword_trie_dict cd sentence
      st ix hstle hidx hlook hget
    rw [slice_split sentence st (ix + 1) j (by omega) hij1,
      lookupTerm_split_none kp.keyword_trie_dict _ _ hnone] at hcand
    simp at hcand

/-- One outer iteration at a zero budget preserves the scan invariant, and
every span it appends is a longest match. -/
theorem outerStep_good (kp : KeywordProcessor) (sentence : List Char)
    (s s1 : ScanState) (hidx : s.idx < sentence.length)
    (hstep : outerStep kp sentence 0 s = some s1)
    (hinv : ScanInv kp sentence s) :
    ScanInv kp sentence s1 ∧
    ∀ m, m ∈ s1.acc → m ∈ s.acc ∨ LongestGood kp sentence m := by
  obtain ⟨cd, st, se, ix, cc, acc⟩ := s
  simp only [ScanInv] at hinv
  dsimp only at hinv hidx
  obtain ⟨hcc, hstle, hlook⟩ := hinv
  subst hcc
  simp only [outerStep, outerBranch] at hstep
  by_cases hwc : kp.isWordChar (sentence.getD ix (Char.ofNat 0)) = true
  · rw [if_neg (not_not_intro hwc)] at hstep
    cases hget : cd.children.get? (sentence.getD ix (Char.ofNat 0)) with
    | some child =>
      simp only [hget] at hstep
      rw [outerFinish_false] at hstep
      simp only [Option.some.injEq] at hstep
      subst hstep
      dsimp only
      refine ⟨?_, ?_⟩
      · exact ⟨rfl, Nat.le_succ_of_le hstle,
          lookupNode_slice_extend kp.keyword_trie_dict cd child sentence st ix
            hstle hidx hlook hget⟩
      · intro m hm
        exact finish_acc_mem kp sentence child st (ix + 1) acc m hm
    | none =>
      simp only [hget] at hstep
      rw [if_neg (by omega : ¬ (0 : Nat) < 0)] at hstep
      dsimp only at hstep
      rw [outerFinish_true] at hstep
      simp only [Option.some.injEq] at hstep
      subst hstep
      dsimp only
      refine ⟨scanInv_reset kp sentence _ _ _, ?_⟩
      intro m hm
      exact finish_acc_mem kp sentence kp.keyword_trie_dict st _ acc m hm
  · rw [if_pos hwc] at hstep
    by_cases hpres : (cd.terminal.isSome
        || (cd.children.get? (sentence.getD ix (Char.ofNat 0))).isSome) = true
    · rw [if_pos hpres] at hstep
      cases hget : cd.children.get? (sentence.getD ix (Char.ofNat 0)) with
      | some child =>
        simp only [hget] at hstep
        cases hrun : innerLoopF kp sentence (innerFuelFor kp sentence child) child
            (ix + 1) 0 cd.terminal (if cd.terminal.isSome = true then ix else se)
            false with
        | none =>
          exact absurd hrun
            (innerFuel_isSome kp sentence child (ix + 1) 0 _ _ (by omega))
        | some r =>
          simp only [hrun] at hstep
          by_cases htr : optTruthy r.longest = true
          · rw [if_pos htr] at hstep
            dsimp only at hstep
            rw [outerFinish_true] at hstep
            simp only [Option.some.injEq] at hstep
            subst hstep
            dsimp only
            refine ⟨scanInv_reset kp sentence _ _ _, ?_⟩
            intro m hm
            rcases finish_acc_mem kp sentence kp.keyword_trie_dict st _ _ m hm with
              hm1 | hm2
            · rcases List.mem_append.mp hm1 with hma | hmb
              · exact Or.inl hma
              · right
                rw [List.mem_singleton.mp hmb]
                exact emission_good_some kp sentence cd child st ix cd.terminal _
                  (innerFuelFor kp sentence child) r _ hstle hidx hlook hget hrun
            · exact Or.inr hm2
          · rw [if_neg htr] at hstep
            rw [innerLoopF_cost0 kp sentence _ child (ix + 1) _ _ false r hrun]
              at hstep
            dsimp only at hstep
            rw [outerFinish_true] at hstep
            simp only [Option.some.injEq] at hstep
            subst hstep
            dsimp only
            refine ⟨scanInv_reset kp sentence _ _ _, ?_⟩
            intro m hm
            exact finish_acc_mem kp sentence kp.keyword_trie_dict st _ acc m hm
      | none =>
        simp only [hget] at hstep
        by_cases htr : optTruthy cd.terminal = true
        · rw [if_pos htr] at hstep
          dsimp only at hstep
          rw [outerFinish_true] at hstep
          simp only [Option.some.injEq] at hstep
          subst hstep
          dsimp only
          refine ⟨scanInv_reset kp sentence _ _ _, ?_⟩
          intro m hm
          rcases finish_acc_mem kp sentence kp.keyword_trie_dict st _ _ m hm with
            hm1 | hm2
          · rcases List.mem_append.mp hm1 with hma | hmb
            · exact Or.inl hma
            · right
              rw [List.mem_singleton.mp hmb]
              exact emission_good_none kp sentence cd st ix _ hstle hidx hlook hget
          · exact Or.inr hm2
        · rw [if_neg htr] at hstep
          dsimp only at hstep
          rw [outerFinish_true] at hstep
          simp only [Option.some.injEq] at hstep
          subst hstep
          dsimp only
          refine ⟨scanInv_reset kp sentence _ _ _, ?_⟩
          intro m hm
          exact finish_acc_mem kp sentence kp.keyword_trie_dict st _ acc m hm
    · rw [if_neg hpres] at hstep
      dsimp only at hstep
      rw [outerFinish_true] at hstep
      simp only [Option.some.injEq] at hstep
      subst hstep
      dsimp only
      refine ⟨scanInv_reset kp sentence _ _ _, ?_⟩
      intro m hm
      exact finish_acc_mem kp sentence kp.keyword_trie_dict st _ acc m hm

/-- Every span the outer loop ever returns from an invariant state with a
longest-match accumulator is a longest match. -/
theorem outerLoopF_good (kp : KeywordProcessor) (sentence : List Char) :
    ∀ (fuel : Nat) (s : ScanState) (res : List (String × Nat × Nat)),
      outerLoopF kp sentence 0 fuel s = some res →
      ScanInv kp sentence s →
      (∀ m, m ∈ s.acc → LongestGood kp sentence m) →
      ∀ m, m ∈ res → LongestGood kp sentence m
  | 0, s, res => by
    intro h hinv hacc m hm
    simp only [outerLoopF] at h
    by_cases hlt : s.idx < sentence.length
    · rw [if_pos hlt] at h
      exact absurd h (by simp)
    · rw [if_neg hlt] at h
      simp only [Option.some.injEq] at h
      subst h
      exact hacc m hm
  | fuel + 1, s, res => by
    intro h hinv hacc m hm
    simp only [outerLoopF] at h
    by_cases hlt : s.idx < sentence.length
    · rw [if_pos hlt] at h
      cases hstep : outerStep kp sentence 0 s with
      | none =>
        rw [hstep] at h
        exact absurd h (by simp)
      | some s1 =>
        rw [hstep] at h
        obtain ⟨hinv1, hmem1⟩ := outerStep_good kp sentence s s1 hlt hstep hinv
        exact outerLoopF_good kp sentence fuel s1 res h hinv1
          (fun m2 hm2 => (hmem1 m2 hm2).elim (hacc m2) id) m hm
    · rw [if_neg hlt] at h
      simp only [Option.some.injEq] at h
      subst h
      exact hacc m hm

/-- Longest-match maximality of the raw extraction at `max_cost = 0`: every
emitted span ends at least as far as every registered pattern that starts
at the same position and ends at a word boundary or at the end of the
scanned sentence. -/
theorem extractRaw_longest (kp : KeywordProcessor) (sentence : List Char)
    (res : List (String × Nat × Nat))
    (h : kp.extractRaw sentence 0 = some res) :
    ∀ m, m ∈ res → LongestGood kp
      (if kp.case_sensitive then sentence else pyLower sentence) m := by
  simp only [KeywordProcessor.extractRaw] at h
  by_cases hs : sentence = []
  · rw [if_pos hs] at h
    simp only [Option.some.injEq] at h
    subst h
    intro m hm
    exact absurd hm (List.not_mem_nil m)
  · rw [if_neg hs] at h
    exact outerLoopF_good kp _ _ _ res h ⟨rfl, Nat.le_refl 0, rfl⟩
      (fun m hm => absurd hm (List.not_mem_nil m))

/-- **C1**: when several registered patterns match starting at the same
position, extraction emits only the one with the greatest end offset,
independent of insertion order.  (i) The example: after registering
`("NY", "new york")`, `("new-york", "new york")`, `("SF", "san francisco")`,
extracting from `"I love SF and NY. new-york is the best."` returns exactly
`["san francisco", "new york", "new york"]` with spans `(7, 9)`, `(14, 16)`
and `(18, 26)` — at position 18 only the longer of the overlapping
candidates `"ny"`/`"new-york"` is emitted.  (ii) For every matcher, every
sentence and every span the scan emits (at the default `max_cost = 0`), no
registered pattern that starts at the span's start position and ends at a
word boundary or at the end of the scanned sentence ends beyond the span's
end (`LongestGood`) — so a shorter same-start candidate can never be the
emitted one.  (iii) For every entry list with pairwise-distinct folded
patterns and every permutation of it, the two matchers extract the same
keyword list from every sentence: the result is independent of the order
in which patterns were added. -/
theorem claim_C1_longest_match :
    ((mkKP c1Base).extract_keywords "I love SF and NY. new-york is the best.".toList 0
        = ["san francisco", "new york", "new york"] ∧
      (mkKP c1Base).extractKeywordsSpan "I love SF and NY. new-york is the best.".toList 0
        = [("san francisco", 7, 9), ("new york", 14, 16), ("new york", 18, 26)]) ∧
    (∀ (kp : KeywordProcessor) (sentence : List Char)
        (res : List (String × Nat × Nat)),
      kp.extractRaw sentence 0 = some res →
      ∀ m, m ∈ res → LongestGood kp
        (if kp.case_sensitive then sentence else pyLower sentence) m) ∧
    (∀ l l' : List (List Char × String), l.Perm l' →
      List.Pairwise (fun a b => foldEntryKey false a ≠ foldEntryKey false b) l →
      ∀ sentence : List Char,
        (mkKP l).extract_keywords sentence 0 = (mkKP l').extract_keywords sentence 0) :=
  ⟨⟨by decide, by decide⟩, extractRaw_longest, extract_keywords_perm⟩

/-- Witness for C1.  Longest match: the raw scan of the example emits
`("new york", 18, 26)`, and the theorem yields its maximality — in
particular the shorter candidate `"ny"` ending at 20 cannot be emitted at
start 18.  Order independence: the reversed insertion order is a
permutation of the example's pattern list with pairwise-distinct folded
patterns, and both matchers extract the same keywords from the example
sentence. -/
theorem claim_C1_longest_match_witness :
    ((mkKP c1Base).extractRaw "I love SF and NY. new-york is the best.".toList 0
        = some [("san francisco", 7, 9), ("new york", 14, 16), ("new york", 18, 26)] ∧
      LongestGood (mkKP c1Base)
        (pyLower "I love SF and NY. new-york is the best.".toList)
        ("new york", 18, 26)) ∧
    ([(("SF".toList : List Char), "san francisco"), ("new-york".toList, "new york"),
        ("NY".toList, "new york")].Perm c1Base ∧
      (mkKP [(("SF".toList : List Char), "san francisco"),
          ("new-york".toList, "new york"), ("NY".toList, "new york")]).extract_keywords
          "I love SF and NY. new-york is the best.".toList 0
        = (mkKP c1Base).extract_keywords
            "I love SF and NY. new-york is the best.".toList 0) :=
  ⟨⟨by decide,
    claim_C1_longest_match.2.1 (mkKP c1Base)
      "I love SF and NY. new-york is the best.".toList
      [("san francisco", 7, 9), ("new york", 14, 16), ("new york", 18, 26)]
      (by decide) ("new york", 18, 26) (by decide)⟩,
   ⟨by decide,
    claim_C1_longest_match.2.2 _ c1Base (by decide) (by decide)
      "I love SF and NY. new-york is the best.".toList⟩⟩

end Flashtext
